import Mathlib

/-!
A verification development for the EDS X-ray line engine of this repository:
the line parser, detector resolution model, line selector, element/line
registry and intensity extractor implemented in `hyperspy/_signals/eds.py`
and `hyperspy/misc/eds/utils.py`.

Modelling conventions.

* Energies and detector resolutions (Python floats) are modelled as rationals
  `ℚ`; the one genuinely real-valued operation, `math.sqrt`, is taken in `ℝ`.
* Python strings are Lean `String`s.  String comparison (`sorted`) is by
  Unicode code point; it is re-implemented below (`charListLe`) because the
  claims quantify over it.
* The element database `elements_db` is an external read-only input (an
  association list in declaration order, matching Python's insertion-ordered
  dicts); every routine takes it as a parameter.  A failed dict lookup
  (Python `KeyError`) and other raised exceptions are modelled with
  `Option`/`Except`.
* Python sets are modelled as lists up to membership; the registry stores
  `sorted(list(set))`, modelled by `canon` below.
-/

namespace EDS

/-! ## Python string ordering -/

/-- Lexicographic comparison of character lists by code point — the ordering
Python uses for strings, hence the order `sorted` produces. -/
def charListLe : List Char → List Char → Bool
  | [], _ => true
  | _ :: _, [] => false
  | a :: as, b :: bs =>
    if a.val.toNat < b.val.toNat then true
    else if b.val.toNat < a.val.toNat then false
    else charListLe as bs

/-- Python string `<=` as a proposition. -/
def strLe (a b : String) : Prop := charListLe a.data b.data = true

instance : DecidableRel strLe := fun _ _ => instDecidableEqBool _ _

/-- Totality of the code-point order (needed by `List.insertionSort`). -/
instance : IsTotal String strLe := ⟨fun a b => total a.data b.data⟩
where
  total : ∀ as bs : List Char, charListLe as bs = true ∨ charListLe bs as = true
    | [], _ => Or.inl rfl
    | _ :: _, [] => Or.inr rfl
    | a :: as, b :: bs => by
      by_cases hab : a.val.toNat < b.val.toNat
      · exact Or.inl (by simp [charListLe, hab])
      · by_cases hba : b.val.toNat < a.val.toNat
        · exact Or.inr (by simp [charListLe, hba, hab])
        · rcases total as bs with h | h
          · exact Or.inl (by simp [charListLe, hab, hba, h])
          · exact Or.inr (by simp [charListLe, hab, hba, h])

/-- Transitivity of the code-point order. -/
instance : IsTrans String strLe := ⟨fun a b c => tr a.data b.data c.data⟩
where
  tr : ∀ as bs cs : List Char,
      charListLe as bs = true → charListLe bs cs = true → charListLe as cs = true
    | [], _, _, _, _ => rfl
    | _ :: _, [], _, h, _ => by simp [charListLe] at h
    | _ :: _, _ :: _, [], _, h => by simp [charListLe] at h
    | a :: as, b :: bs, c :: cs, h₁, h₂ => by
      by_cases hab : a.val.toNat < b.val.toNat
      · by_cases hbc : b.val.toNat < c.val.toNat
        · simp [charListLe, Nat.lt_trans hab hbc]
        · by_cases hcb : c.val.toNat < b.val.toNat
          · simp [charListLe, hbc, hcb] at h₂
          · have : b = c :=
              Char.ext (UInt32.ext (Nat.le_antisymm (Nat.not_lt.mp hcb) (Nat.not_lt.mp hbc)))
            subst this
            simp [charListLe, hab]
      · by_cases hba : b.val.toNat < a.val.toNat
        · simp [charListLe, hab, hba] at h₁
        · have : a = b :=
            Char.ext (UInt32.ext (Nat.le_antisymm (Nat.not_lt.mp hba) (Nat.not_lt.mp hab)))
          subst this
          simp only [charListLe, if_neg hab, if_neg hba] at h₁
          by_cases hac : a.val.toNat < c.val.toNat
          · simp [charListLe, hac]
          · by_cases hca : c.val.toNat < a.val.toNat
            · simp [charListLe, hac, hca] at h₂
            · simp only [charListLe, if_neg hac, if_neg hca] at h₂ ⊢
              exact tr as bs cs h₁ h₂

/-- Antisymmetry of the code-point order. -/
instance : IsAntisymm String strLe :=
  ⟨fun a b h₁ h₂ => by
    cases a; cases b
    exact congrArg String.mk (anti _ _ h₁ h₂)⟩
where
  anti : ∀ as bs : List Char, charListLe as bs = true → charListLe bs as = true → as = bs
    | [], [], _, _ => rfl
    | _ :: _, [], h, _ => by simp [charListLe] at h
    | [], _ :: _, _, h => by simp [charListLe] at h
    | a :: as, b :: bs, h₁, h₂ => by
      by_cases hab : a.val.toNat < b.val.toNat
      · simp [charListLe, hab, Nat.lt_asymm hab] at h₂
      · by_cases hba : b.val.toNat < a.val.toNat
        · simp [charListLe, hab, hba] at h₁
        · have hv : a = b :=
            Char.ext (UInt32.ext (Nat.le_antisymm (Nat.not_lt.mp hba) (Nat.not_lt.mp hab)))
          subst hv
          simp only [charListLe, if_neg hab, if_neg hba] at h₁ h₂
          exact congrArg (a :: ·) (anti as bs h₁ h₂)

/-- `sorted(list(s))` applied to a Python set `s` held as a list: remove
duplicates, then sort by code point.  This is the canonical form in which the
registry persists its element and line lists. -/
def canon (l : List String) : List String := List.insertionSort strLe l.dedup

/-! ## Errors -/

/-- The exceptions the embedded routines can raise.  `unknownElement` covers
both the explicit `ValueError("... is not a valid symbol of an element")` /
`ValueError("... is not a valid chemical element symbol")` checks and a raw
`KeyError` from indexing `elements_db`; `missingBeamEnergy` is the
`AttributeError` raised by `_get_lines_from_elements` when neither
`SEM.beam_energy` nor `TEM.beam_energy` is defined; `outOfFuel` marks
exhaustion of the recursion bound used to model `add_lines`' self-recursion
(which the source does not bound). -/
inductive Err where
  | malformedLine (line : String)
  | unknownElement (element : String)
  | unknownLine (line element : String)
  | missingBeamEnergy
  | resultNotFound
  | outOfFuel
deriving DecidableEq, Repr

/-! ## The element database -/

/-- One element's X-ray line table: subshell name ↦ energy (keV), kept in
database declaration order (a Python dict).  The relative intensity factor
stored alongside the energy is not modelled: none of the verified routines
reads it. -/
abbrev LineTable := List (String × ℚ)

/-- The read-only element database (`elements_db`): element symbol ↦ line
table, in declaration order. -/
abbrev ElementsDB := List (String × LineTable)

/-- `elements_db[element][...]['Xray_lines']` (eds.py) respectively
`elements_db[element]['Xray_energy']` (utils.py): an element's line table;
`none` models Python's `KeyError`. -/
def dbLines (db : ElementsDB) (element : String) : Option LineTable :=
  (db.find? (fun p => p.1 == element)).map (·.2)

/-- The membership test `element in elements_db`. -/
def dbHasElement (db : ElementsDB) (element : String) : Bool :=
  (db.find? (fun p => p.1 == element)).isSome

/-- `table[subshell]`: energy of one subshell in a line table; `none` models
`KeyError`. -/
def subshellEnergy (t : LineTable) (subshell : String) : Option ℚ :=
  (t.find? (fun p => p.1 == subshell)).map (·.2)

/-- A well-formed database: element symbols and subshell names contain no
underscore (true of every real entry: `"Fe"`, `"Ka"`, …), and each line table
has distinct subshell names (it is a Python dict). -/
def DBWellFormed (db : ElementsDB) : Prop :=
  ∀ p ∈ db, ('_' ∉ p.1.data) ∧ (∀ q ∈ p.2, '_' ∉ (q.1 : String).data) ∧
    (p.2.map Prod.fst).Nodup

instance (db : ElementsDB) : Decidable (DBWellFormed db) :=
  inferInstanceAs (Decidable (∀ p ∈ db, ('_' ∉ p.1.data) ∧
    (∀ q ∈ p.2, '_' ∉ (q.1 : String).data) ∧ (p.2.map Prod.fst).Nodup))

/-! ## The line parser -/

/-- Split a character list at its first underscore, returning the parts
before and after it; `none` when there is no underscore. -/
def splitAtUnderscore : List Char → Option (List Char × List Char)
  | [] => none
  | c :: cs =>
    if c = '_' then some ([], cs)
    else (splitAtUnderscore cs).map (fun p => (c :: p.1, p.2))

/-- `utils_eds._get_element_and_line`: `lim = Xray_line.find('_')`, then
`return Xray_line[:lim], Xray_line[lim+1:]`.  When there is no underscore,
`find` returns `-1` and Python slicing turns the result into
`(Xray_line[:-1], Xray_line)` — all but the last character, paired with the
whole identifier — instead of failing. -/
def getElementAndLine (XrayLine : String) : String × String :=
  match splitAtUnderscore XrayLine.data with
  | some p => (String.mk p.1, String.mk p.2)
  | none => (String.mk XrayLine.data.dropLast, XrayLine)

/-- Python `line.split("_")`: cut the character list at every underscore. -/
def splitAllAux : List Char → List (List Char)
  | [] => [[]]
  | c :: cs =>
    if c = '_' then [] :: splitAllAux cs
    else
      match splitAllAux cs with
      | [] => [[c]]
      | g :: gs => (c :: g) :: gs

/-- Python `line.split("_")` on strings. -/
def splitAll (line : String) : List String := (splitAllAux line.data).map String.mk

/-- The destructuring `element, subshell = line.split("_")` in `add_lines`:
it succeeds only when the split has exactly two parts — no underscore, or two
or more underscores, raise `ValueError("Invalid line symbol. ...")`. -/
def splitLine (line : String) : Except Err (String × String) :=
  match splitAll line with
  | [element, subshell] => .ok (element, subshell)
  | _ => .error (.malformedLine line)

/-- `line.split("_")[0]`: the element symbol implied by a stored line
identifier (`add_lines`, lines 253–255). -/
def impliedElement (line : String) : String := (splitAll line).headD ""

/-! ## The resolution model -/

/-- `utils_eds.FWHM(FWHM_ref, E, line_ref)` (utils.py lines 116–154): the
detector FWHM at energy `E` (keV) from the reference resolution `FWHM_ref`
(eV) at the reference line `line_ref`.  The source computes
`FWHM_e = 2.5*(E-E_ref)*1000 + FWHM_ref*FWHM_ref` and returns
`math.sqrt(FWHM_e)/1000` — the result is in keV.  `none` models the
`KeyError` of a failed `line_ref` lookup and the `ValueError` `math.sqrt`
raises on a negative radicand (the source does not clamp it). -/
noncomputable def FWHM (db : ElementsDB) (FWHM_ref E : ℚ) (line_ref : String) : Option ℝ :=
  match dbLines db (getElementAndLine line_ref).1 with
  | none => none
  | some t =>
    match subshellEnergy t (getElementAndLine line_ref).2 with
    | none => none
    | some E_ref =>
      let FWHM_e : ℚ := 2.5 * (E - E_ref) * 1000 + FWHM_ref * FWHM_ref
      if FWHM_e < 0 then none
      else some (Real.sqrt (FWHM_e : ℝ) / 1000)

/-- Modelled from the spec: `get_FWHM_at_Energy`, the resolution-model entry
point called by `get_lines_intensity` and `calibrate_energy_resolution`, is
referenced from `eds.py` as `utils_eds.get_FWHM_at_Energy` but is not defined
anywhere in the source tree.  Spec §4.2 gives its contract: with energies in
keV and FWHM in eV, `fwhm_eV² = 2.5 * (energyKeV - referenceEnergyKeV) * 1000
+ referenceFWHM²`, returning `sqrt(max(fwhm_eV², 0))`, the reference line
defaulting to Mn Ka; the reference line's energy is taken as an explicit
parameter here. -/
noncomputable def get_FWHM_at_Energy (E_ref_MnKa FWHM_ref E : ℚ) : ℝ :=
  Real.sqrt (max ((2.5 * (E - E_ref_MnKa) * 1000 + FWHM_ref * FWHM_ref : ℚ) : ℝ) 0)

/-! ## The line selector -/

/-- The inputs the selector reads from the host spectrum: the beam energy
`SEM.beam_energy` / `TEM.beam_energy` when defined in the metadata, and the
energy-axis upper bound `axes_manager.signal_axes[0].high_value`. -/
structure SpectrumContext where
  beamEnergy : Option ℚ
  highValue : ℚ
deriving DecidableEq, Repr

/-- Lines 336–338: `end_energy = high_value; if beam_energy < end_energy:
end_energy = beam_energy`. -/
def selectionEndEnergy (beamEnergy highValue : ℚ) : ℚ :=
  if beamEnergy < highValue then beamEnergy else highValue

/-- The `only_lines` filter (line 344): `if only_lines and subshell not in
only_lines: continue`.  Python `None` and the empty list are both falsy, so
both impose no restriction. -/
def passOnlyLines (onlyLines : Option (List String)) (subshell : String) : Bool :=
  match onlyLines with
  | none => true
  | some ol => ol.isEmpty || ol.contains subshell

/-- The per-element candidate loop of `_get_lines_from_elements` (lines
342–349): the subshells of `element` that pass the `only_lines` filter and
whose energy is strictly below `end_energy`, rendered as
`element + "_" + subshell`, in database declaration order. -/
def candidateLines (element : String) (t : LineTable) (onlyLines : Option (List String))
    (endEnergy : ℚ) : List String :=
  (t.filter (fun p => passOnlyLines onlyLines p.1 && decide (p.2 < endEnergy))).map
    (fun p => element ++ "_" ++ p.1)

/-- The "choose the best line" loop (lines 350–358): `select_this` becomes
the index of the first candidate whose energy is strictly below
`beam_energy / 2` and stays at the Python default `-1` — indexing the last
candidate — when none is.  The energy is re-looked-up from the subshell part
of the identifier, exactly as the source does; a lookup failure (impossible
for the identifiers `candidateLines` builds) is treated as not matching. -/
def chooseOne (t : LineTable) (beamEnergy : ℚ) (elementLines : List String) : List String :=
  match elementLines.find? (fun line =>
      ((subshellEnergy t ((splitAll line).getD 1 "")).map
        (fun e => decide (e < beamEnergy / 2))).getD false) with
  | some line => [line]
  | none => elementLines.getLast?.elim [] (fun line => [line])

/-- One element's contribution to the selection: the filtered candidates,
replaced by the single "best" one when `only_one` is set and any candidate
survived. -/
def selectElementLines (t : LineTable) (element : String) (onlyOne : Bool)
    (onlyLines : Option (List String)) (beamEnergy endEnergy : ℚ) : List String :=
  let elementLines := candidateLines element t onlyLines endEnergy
  if onlyOne && !elementLines.isEmpty then chooseOne t beamEnergy elementLines
  else elementLines

/-- The element loop of `_get_lines_from_elements` (lines 339–365);
`elements_db[element]` raises `KeyError` for an element missing from the
database.  An element whose candidate list is empty only triggers a printed
diagnostic and contributes nothing. -/
def selectLinesFromElements (db : ElementsDB) (beamEnergy endEnergy : ℚ) (onlyOne : Bool)
    (onlyLines : Option (List String)) : List String → Except Err (List String)
  | [] => .ok []
  | element :: rest =>
    match dbLines db element with
    | none => .error (.unknownElement element)
    | some t =>
      match selectLinesFromElements db beamEnergy endEnergy onlyOne onlyLines rest with
      | .error e => .error e
      | .ok ls => .ok (selectElementLines t element onlyOne onlyLines beamEnergy endEnergy ++ ls)

/-- `EDSSpectrum._get_lines_from_elements` (lines 301–365): raises
`AttributeError` when no beam energy is defined in the metadata (lines
324–334); otherwise caps the spectral range at the beam energy and collects
each element's lines in processing order. -/
def getLinesFromElements (db : ElementsDB) (ctx : SpectrumContext) (elements : List String)
    (onlyOne : Bool) (onlyLines : Option (List String)) : Except Err (List String) :=
  match ctx.beamEnergy with
  | none => .error .missingBeamEnergy
  | some be =>
    selectLinesFromElements db be (selectionEndEnergy be ctx.highValue) onlyOne onlyLines elements

/-! ## The element/line registry -/

/-- The registry state persisted under `metadata.Sample`: the `elements` and
`Xray_lines` lists, each possibly absent (the source tests
`"Sample.elements" in self.metadata` etc.). -/
structure RState where
  elements : Option (List String)
  xrayLines : Option (List String)
deriving DecidableEq, Repr

/-- The stored element list, defaulting to empty when absent — the
`set(self.metadata.Sample.elements) if present else set()` reading. -/
def elsD (s : RState) : List String := s.elements.getD []

/-- The stored X-ray line list, defaulting to empty when absent. -/
def xlD (s : RState) : List String := s.xrayLines.getD []

/-- `add_elements` (lines 138–174): validate every symbol against the
database — raising `ValueError` at the first invalid one, before anything is
written — then persist the sorted union with the present contents.  Errors
carry the state left behind by the raise (here always the input state: the
single write happens after the loop). -/
def addElements (db : ElementsDB) (elements : List String) (s : RState) :
    Except (Err × RState) RState :=
  match elements.find? (fun el => !dbHasElement db el) with
  | some bad => .error (.unknownElement bad, s)
  | none => .ok { s with elements := some (canon (s.elements.getD [] ++ elements)) }

/-- `set_elements` (lines 108–136): delete `Sample.elements` when present,
then `add_elements`. -/
def setElements (db : ElementsDB) (elements : List String) (s : RState) :
    Except (Err × RState) RState :=
  addElements db elements { s with elements := none }

/-- The explicit-line validation loop of `add_lines` (lines 257–282),
accumulating the covered-element set and the line set (as lists up to
membership); it raises at the first malformed identifier, unknown element,
or unknown subshell.  The "is above the data energy range" test only prints
a warning (line 273–276) and is not modelled. -/
def validateLines (db : ElementsDB) : List String → List String → List String →
    Except Err (List String × List String)
  | [], elements, xl => .ok (elements, xl)
  | line :: rest, elements, xl =>
    match splitLine line with
    | .error e => .error e
    | .ok (element, subshell) =>
      match dbLines db element with
      | none => .error (.unknownElement element)
      | some t =>
        if (subshellEnergy t subshell).isSome then
          validateLines db rest (element :: elements) (line :: xl)
        else .error (.unknownLine line element)

/-- `add_lines` (lines 211–299).  Read the stored line set and the elements
it covers; validate and accumulate the explicit `lines`; for stored elements
not covered, select lines automatically and — when any were found — recurse
with the
default arguments `only_one=True, only_lines=("Ka","La","Ma")` (line 292
passes none of the caller's flags); then `add_elements` the accumulated
element set and persist the sorted union of the accumulated lines with the
(possibly recursion-updated) stored ones.  The unbounded self-recursion is
modelled with an explicit `fuel` bound; every error carries the state at the
moment of the raise, modelling what a Python exception leaves behind.

`addLinesFinish` is the common tail of `add_lines` (lines 293–299): run
`add_elements` on the accumulated element set against the current state, then
persist `sorted(list(Xray_lines.union(stored)))`. -/
def addLinesFinish (db : ElementsDB) (elements xl : List String) (s₁ : RState) :
    Except (Err × RState) RState :=
  match addElements db elements s₁ with
  | .error es => .error es
  | .ok s₂ => .ok { s₂ with xrayLines := some (canon (xl ++ xlD s₂)) }

def addLines (db : ElementsDB) (ctx : SpectrumContext) :
    Nat → List String → Bool → Option (List String) → RState → Except (Err × RState) RState
  | 0, _, _, _, s => .error (.outOfFuel, s)
  | fuel + 1, lines, onlyOne, onlyLines, s =>
    match validateLines db lines ((xlD s).map impliedElement) (xlD s) with
    | .error e => .error (e, s)
    | .ok (elements, xl) =>
      match s.elements with
      | none => addLinesFinish db elements xl s
      | some storedEls =>
        let extra := storedEls.filter (fun el => !elements.contains el)
        if extra.isEmpty then addLinesFinish db elements xl s
        else
          match getLinesFromElements db ctx extra onlyOne onlyLines with
          | .error e => .error (e, s)
          | .ok newLines =>
            if newLines.isEmpty then addLinesFinish db elements xl s
            else
              match addLines db ctx fuel newLines true (some ["Ka", "La", "Ma"]) s with
              | .error es => .error es
              | .ok s₁ => addLinesFinish db elements xl s₁

/-- `set_lines` (lines 176–209): delete `Sample.Xray_lines` when present,
then `add_lines`. -/
def setLines (db : ElementsDB) (ctx : SpectrumContext) (fuel : Nat) (lines : List String)
    (onlyOne : Bool) (onlyLines : Option (List String)) (s : RState) :
    Except (Err × RState) RState :=
  addLines db ctx fuel lines onlyOne onlyLines { s with xrayLines := none }

/-! ## The result store adapter -/

/-- One stored result (`IntensityResult`): a human-readable title plus a
payload (whose array shape is irrelevant to the lookup contract, so a single
rational stands for it). -/
structure StoreEntry where
  title : String
  payload : ℚ
deriving DecidableEq, Repr

/-- Matching of `needle` at the head of `hay`. -/
def headMatch : List Char → List Char → Bool
  | [], _ => true
  | _ :: _, [] => false
  | a :: as, b :: bs => a == b && headMatch as bs

/-- Occurrence of `needle` contiguously anywhere in `hay`. -/
def occursIn (needle : List Char) : List Char → Bool
  | [] => needle.isEmpty
  | c :: cs => headMatch needle (c :: cs) || occursIn needle cs

/-- Python's substring test `needle in hay`. -/
def strIn (needle hay : String) : Bool := occursIn needle.data hay.data

/-- `get_result` (lines 707–725): scan the stored list for the result kind in
order and return the first entry whose title contains the requested
line/element key as a substring; raise `ValueError("Didn't find it")`
otherwise. -/
def getResult (XrayLine : String) : List StoreEntry → Except Err StoreEntry
  | [] => .error .resultNotFound
  | r :: rest => if strIn XrayLine r.title then .ok r else getResult XrayLine rest

/-! ## The intensity extractor (direct mode) -/

/-- The line-energy lookup
`elements_db[element]['Atomic_properties']['Xray_lines'][line]['energy (keV)']`
applied to a parsed identifier (lines 466–472). -/
def lineEnergy (db : ElementsDB) (XrayLine : String) : Option ℚ :=
  match dbLines db (getElementAndLine XrayLine).1 with
  | none => none
  | some t => subshellEnergy t (getElementAndLine XrayLine).2

/-- One iteration of the direct-mode loop of `get_lines_intensity` (lines
464–495): parse the identifier, look up the line energy, take the detector
FWHM there from the resolution model, and sum the host signal over the
closed window `line_energy ± integration_window_factor * line_FWHM / 2`.
The slice-and-sum `self[..., lo:hi].sum(-1)` is the abstract `reduce`
collaborator of the host-signal contract; a `KeyError` from the database
indexing propagates.  Titling, plotting, and navigation-shape reshaping are
outside the extraction contract. -/
noncomputable def lineIntensityDirect {α : Type} (db : ElementsDB) (E_ref_MnKa : ℚ)
    (FWHM_MnKa factor : ℚ) (reduce : ℝ → ℝ → α) (XrayLine : String) : Except Err α :=
  match lineEnergy db XrayLine with
  | none => .error (.unknownElement (getElementAndLine XrayLine).1)
  | some e =>
    let lineFWHM := get_FWHM_at_Energy E_ref_MnKa FWHM_MnKa e
    let det := (factor : ℝ) * lineFWHM / 2
    .ok (reduce ((e : ℝ) - det) ((e : ℝ) + det))

/-- The direct-mode branch (`lines_deconvolution is None`) of
`get_lines_intensity`: one windowed reduction per requested line, processed
in input order, the intensity list index-aligned with the input list. -/
noncomputable def getLinesIntensityDirect {α : Type} (db : ElementsDB) (E_ref_MnKa : ℚ)
    (FWHM_MnKa factor : ℚ) (reduce : ℝ → ℝ → α) : List String → Except Err (List α)
  | [] => .ok []
  | l :: rest =>
    match lineIntensityDirect db E_ref_MnKa FWHM_MnKa factor reduce l with
    | .error e => .error e
    | .ok v =>
      match getLinesIntensityDirect db E_ref_MnKa FWHM_MnKa factor reduce rest with
      | .error e => .error e
      | .ok vs => .ok (v :: vs)

/-! ## Validity and the registry invariant -/

/-- A valid line identifier in the sense of the `add_lines` validation:
exactly one separator, a known element, and a subshell defined for it. -/
def lineValidB (db : ElementsDB) (line : String) : Bool :=
  match splitLine line with
  | .ok (element, subshell) =>
    match dbLines db element with
    | some t => (subshellEnergy t subshell).isSome
    | none => false
  | .error _ => false

/-- The registry invariant of spec §3 (`ElementRegistry`): every stored line
is valid against the database, every element implied by a stored line is
stored, and both stored lists are sorted (by code point) and duplicate-free. -/
def RegistryInv (db : ElementsDB) (s : RState) : Prop :=
  (∀ line ∈ xlD s, lineValidB db line = true) ∧
  (∀ line ∈ xlD s, impliedElement line ∈ elsD s) ∧
  List.Sorted strLe (elsD s) ∧ (elsD s).Nodup ∧
  List.Sorted strLe (xlD s) ∧ (xlD s).Nodup

instance (db : ElementsDB) (s : RState) : Decidable (RegistryInv db s) :=
  inferInstanceAs (Decidable ((∀ line ∈ xlD s, lineValidB db line = true) ∧
    (∀ line ∈ xlD s, impliedElement line ∈ elsD s) ∧
    List.Sorted strLe (elsD s) ∧ (elsD s).Nodup ∧
    List.Sorted strLe (xlD s) ∧ (xlD s).Nodup))

/-- Postcondition of one successful `addLines` run from `s` to `s₁` with
explicit `lines` and filter `onlyLines`: both lists are persisted in
canonical sorted form; stored lines and elements only grow and the explicit
lines are stored; every implied element is stored; new elements are implied
by stored lines; implied elements and explicit lines are valid; new stored
lines are valid; and every stored element not covered by any stored line has
an empty candidate selection under this call's filter (which is how it
escaped the auto-fill). -/
structure AddLinesPost (db : ElementsDB) (ctx : SpectrumContext) (lines : List String)
    (onlyLines : Option (List String)) (s s₁ : RState) : Prop where
  elsSome : s₁.elements = some (elsD s₁)
  xlSome : s₁.xrayLines = some (xlD s₁)
  elsCanon : elsD s₁ = canon (elsD s₁)
  xlCanon : xlD s₁ = canon (xlD s₁)
  xlGrow : ∀ x ∈ xlD s, x ∈ xlD s₁
  linesIn : ∀ x ∈ lines, x ∈ xlD s₁
  elsGrow : ∀ x ∈ elsD s, x ∈ elsD s₁
  impliedIn : ∀ line ∈ xlD s₁, impliedElement line ∈ elsD s₁
  elsFrom : ∀ el ∈ elsD s₁, el ∈ elsD s ∨ ∃ line ∈ xlD s₁, impliedElement line = el
  impliedValid : ∀ line ∈ xlD s₁, dbHasElement db (impliedElement line) = true
  linesValid : ∀ l ∈ lines, lineValidB db l = true
  xlFrom : ∀ line ∈ xlD s₁, line ∈ xlD s ∨ lineValidB db line = true
  uncovered : ∀ el ∈ elsD s₁, (¬ ∃ line ∈ xlD s₁, impliedElement line = el) →
    ∃ be t, ctx.beamEnergy = some be ∧ dbLines db el = some t ∧
      candidateLines el t onlyLines (selectionEndEnergy be ctx.highValue) = []

instance {e a : Type} [DecidableEq e] [DecidableEq a] : DecidableEq (Except e a) := fun x y =>
  match x, y with
  | .error u, .error v =>
    match decEq u v with
    | isTrue h => isTrue (h ▸ rfl)
    | isFalse h => isFalse (fun hh => h (Except.error.inj hh))
  | .error _, .ok _ => isFalse (fun hh => Except.noConfusion hh)
  | .ok _, .error _ => isFalse (fun hh => Except.noConfusion hh)
  | .ok u, .ok v =>
    match decEq u v with
    | isTrue h => isTrue (h ▸ rfl)
    | isFalse h => isFalse (fun hh => h (Except.ok.inj hh))

/-! ## A concrete database instance

`dbA` is a miniature of the real `elements_db` used for concrete witnesses
and counterexamples: energies are whole keV to keep all arithmetic literal.
-/

def dbA : ElementsDB :=
  [("Mn", [("Ka", 6), ("Kb", 7)]), ("Fe", [("Ka", 6), ("La", 1)]), ("O", [("Ka", 1)])]

/-! ## Lemmas about the canonical sorted form -/

theorem mem_canon {x : String} {l : List String} : x ∈ canon l ↔ x ∈ l := by
  unfold canon
  rw [(List.perm_insertionSort strLe l.dedup).mem_iff]
  exact List.mem_dedup

theorem canon_sorted (l : List String) : List.Sorted strLe (canon l) :=
  List.sorted_insertionSort strLe l.dedup

theorem canon_nodup (l : List String) : (canon l).Nodup :=
  (List.perm_insertionSort strLe l.dedup).nodup_iff.mpr l.nodup_dedup

theorem canon_eq_of_mem_iff {l₁ l₂ : List String} (h : ∀ x, x ∈ l₁ ↔ x ∈ l₂) :
    canon l₁ = canon l₂ := by
  refine List.eq_of_perm_of_sorted ?_ (canon_sorted l₁) (canon_sorted l₂)
  refine List.perm_of_nodup_nodup_toFinset_eq (canon_nodup l₁) (canon_nodup l₂) ?_
  ext x
  simp only [List.mem_toFinset, mem_canon]
  exact h x

theorem canon_canon (l : List String) : canon (canon l) = canon l :=
  canon_eq_of_mem_iff (fun _ => mem_canon)

/-! ## Lemmas about splitting identifiers -/

theorem strData_append (a b : String) : (a ++ b).data = a.data ++ b.data :=
  String.data_append a b

theorem buildLine_data (el sub : String) :
    (el ++ "_" ++ sub).data = el.data ++ '_' :: sub.data := by
  simp [strData_append]

theorem splitAllAux_ne_nil : ∀ cs : List Char, splitAllAux cs ≠ []
  | [] => by simp [splitAllAux]
  | c :: cs => by
    by_cases h : c = '_'
    · simp [splitAllAux, h]
    · cases hrec : splitAllAux cs with
      | nil => simp [splitAllAux, h, hrec]
      | cons g gs => simp [splitAllAux, h, hrec]

theorem splitAllAux_no_sep : ∀ cs : List Char, '_' ∉ cs → splitAllAux cs = [cs]
  | [], _ => rfl
  | c :: cs, h => by
    have hc : ¬ c = '_' := fun hc => h (hc ▸ List.mem_cons_self c cs)
    have := splitAllAux_no_sep cs (fun hm => h (List.mem_cons_of_mem c hm))
    simp [splitAllAux, hc, this]

theorem splitAllAux_sep : ∀ xs ys : List Char, '_' ∉ xs →
    splitAllAux (xs ++ '_' :: ys) = xs :: splitAllAux ys
  | [], ys, _ => by simp [splitAllAux]
  | x :: xs, ys, h => by
    have hx : ¬ x = '_' := fun hc => h (hc ▸ List.mem_cons_self x xs)
    have hrec := splitAllAux_sep xs ys (fun hm => h (List.mem_cons_of_mem x hm))
    simp only [List.cons_append, splitAllAux, if_neg hx]
    rw [List.append_eq, hrec]

theorem splitAll_no_sep {s : String} (h : '_' ∉ s.data) : splitAll s = [s] := by
  unfold splitAll
  rw [splitAllAux_no_sep s.data h]
  rfl

theorem splitAll_build (el sub : String) (h : '_' ∉ el.data) :
    splitAll (el ++ "_" ++ sub) = el :: splitAll sub := by
  unfold splitAll
  rw [buildLine_data, splitAllAux_sep el.data sub.data h]
  rfl

theorem splitAll_two (el sub : String) (hel : '_' ∉ el.data) (hsub : '_' ∉ sub.data) :
    splitAll (el ++ "_" ++ sub) = [el, sub] := by
  rw [splitAll_build el sub hel, splitAll_no_sep hsub]

theorem splitLine_two (el sub : String) (hel : '_' ∉ el.data) (hsub : '_' ∉ sub.data) :
    splitLine (el ++ "_" ++ sub) = .ok (el, sub) := by
  unfold splitLine
  rw [splitAll_two el sub hel hsub]

theorem splitLine_no_sep {s : String} (h : '_' ∉ s.data) :
    splitLine s = .error (.malformedLine s) := by
  unfold splitLine
  rw [splitAll_no_sep h]

theorem splitLine_ok_splitAll {line el sub : String}
    (h : splitLine line = .ok (el, sub)) : splitAll line = [el, sub] := by
  unfold splitLine at h
  rcases hs : splitAll line with _ | ⟨a, _ | ⟨b, _ | ⟨c, l⟩⟩⟩ <;> rw [hs] at h
  · simp at h
  · simp at h
  · obtain ⟨h₁, h₂⟩ : a = el ∧ b = sub := by simpa using h
    rw [h₁, h₂]
  · simp at h

theorem impliedElement_of_splitLine {line el sub : String}
    (h : splitLine line = .ok (el, sub)) : impliedElement line = el := by
  unfold impliedElement
  rw [splitLine_ok_splitAll h]
  rfl

theorem impliedElement_build (el sub : String) (h : '_' ∉ el.data) :
    impliedElement (el ++ "_" ++ sub) = el := by
  unfold impliedElement
  rw [splitAll_build el sub h]
  rfl

theorem splitAtUnderscore_no_sep : ∀ cs : List Char, '_' ∉ cs →
    splitAtUnderscore cs = none
  | [], _ => rfl
  | c :: cs, h => by
    have hc : ¬ c = '_' := fun hc => h (hc ▸ List.mem_cons_self c cs)
    have := splitAtUnderscore_no_sep cs (fun hm => h (List.mem_cons_of_mem c hm))
    simp [splitAtUnderscore, hc, this]

theorem splitAtUnderscore_sep : ∀ xs ys : List Char, '_' ∉ xs →
    splitAtUnderscore (xs ++ '_' :: ys) = some (xs, ys)
  | [], ys, _ => by simp [splitAtUnderscore]
  | x :: xs, ys, h => by
    have hx : ¬ x = '_' := fun hc => h (hc ▸ List.mem_cons_self x xs)
    have hrec := splitAtUnderscore_sep xs ys (fun hm => h (List.mem_cons_of_mem x hm))
    simp [splitAtUnderscore, hx, hrec]

theorem getElementAndLine_build (el rest : String) (h : '_' ∉ el.data) :
    getElementAndLine (el ++ "_" ++ rest) = (el, rest) := by
  unfold getElementAndLine
  rw [buildLine_data, splitAtUnderscore_sep el.data rest.data h]

theorem getElementAndLine_no_sep {s : String} (h : '_' ∉ s.data) :
    getElementAndLine s = (String.mk s.data.dropLast, s) := by
  unfold getElementAndLine
  rw [splitAtUnderscore_no_sep s.data h]

theorem splitAllAux_length_ge_two (cs : List Char) (h : '_' ∈ cs) :
    2 ≤ (splitAllAux cs).length := by
  induction cs with
  | nil => simp at h
  | cons c cs ih =>
    by_cases hc : c = '_'
    · have h0 : 0 < (splitAllAux cs).length := List.length_pos.mpr (splitAllAux_ne_nil cs)
      simp only [splitAllAux, if_pos hc, List.length_cons]
      omega
    · have hmem : '_' ∈ cs := by
        rcases List.mem_cons.mp h with h' | h'
        · exact absurd h'.symm hc
        · exact h'
      have hrec := ih hmem
      cases hs : splitAllAux cs with
      | nil => exact absurd hs (splitAllAux_ne_nil cs)
      | cons g gs =>
        rw [hs] at hrec
        simp only [splitAllAux, if_neg hc, hs, List.length_cons] at hrec ⊢
        omega

theorem splitLine_two_seps (el rest : String) (hel : '_' ∉ el.data)
    (hrest : '_' ∈ rest.data) :
    splitLine (el ++ "_" ++ rest) = .error (.malformedLine (el ++ "_" ++ rest)) := by
  unfold splitLine
  rw [splitAll_build el rest hel]
  have hlen : 2 ≤ (splitAll rest).length := by
    unfold splitAll
    rw [List.length_map]
    exact splitAllAux_length_ge_two rest.data hrest
  cases hs : splitAll rest with
  | nil => simp [hs] at hlen
  | cons a l2 =>
    cases l2 with
    | nil => simp [hs] at hlen
    | cons b l3 => rfl

/-! ## Claim C2 -/

theorem fwhm_dbA_eval :
    FWHM dbA 1000 6 "Mn_Ka" = some (Real.sqrt ((1000000 : ℚ) : ℝ) / 1000) := by
  have hg : getElementAndLine "Mn_Ka" = ("Mn", "Ka") := by decide
  have hl : dbLines dbA "Mn" = some [("Ka", 6), ("Kb", 7)] := by decide
  have hs : subshellEnergy [("Ka", 6), ("Kb", 7)] "Ka" = some 6 := by decide
  have harith : (2.5 * ((6 : ℚ) - 6) * 1000 + 1000 * 1000 : ℚ) = 1000000 := by norm_num
  unfold FWHM
  rw [hg]
  simp only [hl, hs, harith]
  rw [if_neg (by norm_num : ¬ (1000000 : ℚ) < 0)]

theorem sqrt_million : Real.sqrt ((1000000 : ℚ) : ℝ) = 1000 := by
  have : ((1000000 : ℚ) : ℝ) = 1000 ^ 2 := by norm_num
  rw [this, Real.sqrt_sq (by norm_num : (0 : ℝ) ≤ 1000)]

/-- C2 counterexample: at the Mn Ka reference line itself (energy 6 keV in
`dbA`) with reference FWHM 1000 eV, the source `FWHM` returns
`sqrt(10^6)/1000 = 1` (keV), not the claimed `sqrt(max(10^6, 0)) = 1000`
(eV): the source divides by 1000 and never clamps the radicand. -/
theorem C2_counterexample :
    FWHM dbA 1000 6 "Mn_Ka" ≠
      some (Real.sqrt (max (2.5 * ((6 : ℝ) - 6) * 1000 + 1000 * 1000) 0)) := by
  rw [fwhm_dbA_eval, sqrt_million]
  have hr : max (2.5 * ((6 : ℝ) - 6) * 1000 + 1000 * 1000) 0 = 1000 ^ 2 := by norm_num
  rw [hr, Real.sqrt_sq (by norm_num : (0 : ℝ) ≤ 1000)]
  intro h
  have := Option.some.inj h
  norm_num at this

/-- C2 (amended): with the reference line's energy looked up as `E_ref`, the
source `FWHM` computes the radicand `2.5*(E - E_ref)*1000 + f²` exactly as
claimed, but (a) it returns `sqrt(radicand)/1000` — the claimed eV value
converted to keV — and (b) on a negative radicand it fails (`math.sqrt`
raises `ValueError`) instead of clamping the radicand to zero. -/
theorem FWHM_eq (db : ElementsDB) (f E E_ref : ℚ) (ref : String) (t : LineTable)
    (hdb : dbLines db (getElementAndLine ref).1 = some t)
    (hsub : subshellEnergy t (getElementAndLine ref).2 = some E_ref) :
    (0 ≤ 2.5 * (E - E_ref) * 1000 + f * f →
      FWHM db f E ref =
        some (Real.sqrt ((2.5 * (E - E_ref) * 1000 + f * f : ℚ) : ℝ) / 1000)) ∧
    (2.5 * (E - E_ref) * 1000 + f * f < 0 → FWHM db f E ref = none) := by
  constructor
  · intro h
    simp only [FWHM, hdb, hsub]
    rw [if_neg (not_lt.mpr h)]
  · intro h
    simp only [FWHM, hdb, hsub]
    rw [if_pos h]

/-- C2 witness: the amended theorem applied at the concrete `dbA` input. -/
theorem FWHM_eq_witness :
    FWHM dbA 1000 6 "Mn_Ka" =
      some (Real.sqrt ((2.5 * ((6 : ℚ) - 6) * 1000 + 1000 * 1000 : ℚ) : ℝ) / 1000) := by
  refine (FWHM_eq dbA 1000 6 6 "Mn_Ka" [("Ka", 6), ("Kb", 7)] (by decide) (by decide)).1 ?_
  have h : (2.5 * ((6 : ℚ) - 6) * 1000 + 1000 * 1000 : ℚ) = 1000 * 1000 := by
    rw [sub_self, mul_zero, zero_mul, zero_add]
  rw [h]
  exact mul_self_nonneg (1000 : ℚ)

/-! ## Claim C3 -/

/-- C3 counterexample: evaluated at the reference line's own energy with
reference FWHM 2000 eV, the source `FWHM` returns `2` (the reference
converted to keV), not the claimed `2000`. -/
theorem C3_counterexample : FWHM dbA 2000 6 "Mn_Ka" ≠ some ((2000 : ℝ)) := by
  have hg : getElementAndLine "Mn_Ka" = ("Mn", "Ka") := by decide
  have hl : dbLines dbA "Mn" = some [("Ka", 6), ("Kb", 7)] := by decide
  have hs : subshellEnergy [("Ka", 6), ("Kb", 7)] "Ka" = some 6 := by decide
  have harith : (2.5 * ((6 : ℚ) - 6) * 1000 + 2000 * 2000 : ℚ) = 4000000 := by norm_num
  unfold FWHM
  rw [hg]
  simp only [hl, hs, harith]
  rw [if_neg (by norm_num : ¬ (4000000 : ℚ) < 0)]
  have h4 : Real.sqrt ((4000000 : ℚ) : ℝ) = 2000 := by
    have : ((4000000 : ℚ) : ℝ) = 2000 ^ 2 := by norm_num
    rw [this, Real.sqrt_sq (by norm_num : (0 : ℝ) ≤ 2000)]
  rw [h4]
  intro h
  have := Option.some.inj h
  norm_num at this

/-- C3 (amended): at the reference line's own energy the broadening term is
zero and the source `FWHM` returns exactly `f/1000` — the reference FWHM `f`
(eV) converted to keV — rather than `f` itself. -/
theorem FWHM_at_ref (db : ElementsDB) (f E_ref : ℚ) (ref : String) (t : LineTable)
    (hdb : dbLines db (getElementAndLine ref).1 = some t)
    (hsub : subshellEnergy t (getElementAndLine ref).2 = some E_ref)
    (hf : 0 ≤ f) :
    FWHM db f E_ref ref = some ((f : ℝ) / 1000) := by
  have h0 : (2.5 * (E_ref - E_ref) * 1000 + f * f : ℚ) = f * f := by
    rw [sub_self, mul_zero, zero_mul, zero_add]
  have h1 := (FWHM_eq db f E_ref E_ref ref t hdb hsub).1 (by rw [h0]; exact mul_self_nonneg f)
  rw [h1, h0]
  have h2 : ((f * f : ℚ) : ℝ) = (f : ℝ) * (f : ℝ) := by push_cast; ring
  rw [h2, Real.sqrt_mul_self (by exact_mod_cast hf)]

/-- C3 witness: the amended theorem applied at the concrete `dbA` input. -/
theorem FWHM_at_ref_witness : FWHM dbA 2000 6 "Mn_Ka" = some ((2000 : ℚ) / 1000 : ℝ) := by
  have := FWHM_at_ref dbA 2000 6 "Mn_Ka" [("Ka", 6), ("Kb", 7)] (by decide) (by decide)
    (by decide)
  simpa using this

/-! ## Claim C5 -/

/-- C5 counterexample: `_get_element_and_line` does not fail on the
separator-free identifier `"FeKa"` — it returns `("FeK", "FeKa")` — and the
`add_lines` destructuring rejects `"Fe_Ka_b"` although it contains a
separator, instead of splitting it at the first one. -/
theorem C5_counterexample :
    getElementAndLine "FeKa" = ("FeK", "FeKa") ∧
    splitLine "Fe_Ka_b" = .error (.malformedLine "Fe_Ka_b") := by
  constructor
  · decide
  · decide

/-- C5 (amended): the two parsers disagree with the claim in opposite ways.
With no separator, the `add_lines` destructuring (`splitLine`) fails as
claimed but `_get_element_and_line` silently returns
`(identifier[:-1], identifier)`; with exactly one separator both split into
`(element, subshell)`; with two or more separators `_get_element_and_line`
splits at the first one while the `add_lines` destructuring fails. -/
theorem parse_amended :
    (∀ s : String, '_' ∉ s.data →
      splitLine s = .error (.malformedLine s) ∧
      getElementAndLine s = (String.mk s.data.dropLast, s)) ∧
    (∀ el sub : String, '_' ∉ el.data → '_' ∉ sub.data →
      splitLine (el ++ "_" ++ sub) = .ok (el, sub)) ∧
    (∀ el rest : String, '_' ∉ el.data →
      getElementAndLine (el ++ "_" ++ rest) = (el, rest)) ∧
    (∀ el rest : String, '_' ∉ el.data → '_' ∈ rest.data →
      splitLine (el ++ "_" ++ rest) = .error (.malformedLine (el ++ "_" ++ rest))) := by
  refine ⟨fun s h => ⟨splitLine_no_sep h, getElementAndLine_no_sep h⟩,
    fun el sub h₁ h₂ => splitLine_two el sub h₁ h₂,
    fun el rest h => getElementAndLine_build el rest h,
    fun el rest h₁ h₂ => splitLine_two_seps el rest h₁ h₂⟩

/-- C5 witness: the amended theorem applied at concrete identifiers. -/
theorem parse_amended_witness :
    splitLine "FeKa" = .error (.malformedLine "FeKa") ∧
    getElementAndLine "FeKa" = (String.mk "FeKa".data.dropLast, "FeKa") ∧
    splitLine ("Fe" ++ "_" ++ "Ka") = .ok ("Fe", "Ka") ∧
    getElementAndLine ("Fe" ++ "_" ++ "Ka_b") = ("Fe", "Ka_b") ∧
    splitLine ("Fe" ++ "_" ++ "Ka_b") = .error (.malformedLine ("Fe" ++ "_" ++ "Ka_b")) := by
  refine ⟨(parse_amended.1 "FeKa" (by decide)).1, (parse_amended.1 "FeKa" (by decide)).2,
    parse_amended.2.1 "Fe" "Ka" (by decide) (by decide),
    parse_amended.2.2.1 "Fe" "Ka_b" (by decide),
    parse_amended.2.2.2 "Fe" "Ka_b" (by decide) (by decide)⟩

/-! ## Claim C9 -/

/-- C9 counterexample: the key `"Fe"` was never stored — the single entry was
stored for the line `"Fe_Ka"`, whose title embeds it — yet `get_result`
returns that entry for `"Fe"` instead of failing, because the lookup is a
substring match on titles. -/
theorem C9_counterexample :
    ("Fe" ∉ (["Fe_Ka"] : List String)) ∧
    getResult "Fe" [⟨"Int Fe_Ka", 3⟩] = .ok ⟨"Int Fe_Ka", 3⟩ := by
  constructor
  · decide
  · decide

/-- C9 (amended): `get_result` returns the first stored entry whose title
contains the key as a substring and fails with `ValueError` when no stored
title contains it; a key that was never stored is still found whenever it
occurs as a substring of some stored title (e.g. an element symbol inside a
line's title). -/
theorem getResult_amended :
    (∀ (key : String) (results : List StoreEntry),
      (∀ r ∈ results, strIn key r.title = false) →
      getResult key results = .error .resultNotFound) ∧
    (∀ (key : String) (results : List StoreEntry) (r : StoreEntry),
      getResult key results = .ok r →
      strIn key r.title = true ∧
      ∃ pre post, results = pre ++ r :: post ∧ ∀ x ∈ pre, strIn key x.title = false) := by
  constructor
  · intro key results
    induction results with
    | nil => intro _; rfl
    | cons a rest ih =>
      intro h
      have ha : strIn key a.title = false := h a (List.mem_cons_self a rest)
      simp only [getResult, ha, Bool.false_eq_true, if_false]
      exact ih (fun r hr => h r (List.mem_cons_of_mem a hr))
  · intro key results
    induction results with
    | nil => intro r h; exact absurd h (by simp [getResult])
    | cons a rest ih =>
      intro r h
      by_cases ha : strIn key a.title = true
      · simp only [getResult, ha, if_true] at h
        cases h
        exact ⟨ha, [], rest, rfl, by simp⟩
      · simp only [getResult, ha, if_false] at h
        obtain ⟨hr, pre, post, hsplit, hpre⟩ := ih r h
        refine ⟨hr, a :: pre, post, by rw [hsplit]; rfl, ?_⟩
        intro x hx
        rcases List.mem_cons.mp hx with h' | h'
        · rw [h']
          exact Bool.not_eq_true _ ▸ (by simpa using ha)
        · exact hpre x h'

/-! ## Lemmas about the selector -/

theorem strExt {a b : String} (h : a.data = b.data) : a = b := by
  cases a; cases b; exact congrArg String.mk h

theorem buildLine_inj_right {el a b : String} (h : el ++ "_" ++ a = el ++ "_" ++ b) :
    a = b := by
  have hd := congrArg String.data h
  rw [buildLine_data, buildLine_data] at hd
  exact strExt ((Function.Injective.eq_iff List.cons_injective).mp (List.append_cancel_left hd))

theorem find?_congr_mem {α : Type} {p q : α → Bool} :
    ∀ {l : List α}, (∀ x ∈ l, p x = q x) → l.find? p = l.find? q
  | [], _ => rfl
  | a :: l, h => by
    have ha := h a (List.mem_cons_self a l)
    by_cases hp : p a = true
    · rw [List.find?_cons_of_pos _ hp, List.find?_cons_of_pos _ (ha ▸ hp)]
    · rw [List.find?_cons_of_neg _ hp, List.find?_cons_of_neg _ (ha ▸ hp)]
      exact find?_congr_mem (fun x hx => h x (List.mem_cons_of_mem a hx))

theorem subshellEnergy_of_mem {t : LineTable} {sub : String} {e : ℚ}
    (hnd : (t.map Prod.fst).Nodup) (hmem : (sub, e) ∈ t) :
    subshellEnergy t sub = some e := by
  induction t with
  | nil => exact absurd hmem (List.not_mem_nil _)
  | cons p t ih =>
    rcases List.mem_cons.mp hmem with h | h
    · rw [← h]
      simp [subshellEnergy, List.find?_cons_of_pos]
    · have hne : ¬ p.1 = sub := by
        intro hps
        have : sub ∈ t.map Prod.fst := List.mem_map.mpr ⟨(sub, e), h, rfl⟩
        rw [← hps] at this
        exact (List.nodup_cons.mp hnd).1 this
      have ih' := ih (List.nodup_cons.mp hnd).2 h
      simp only [subshellEnergy] at ih' ⊢
      rw [List.find?_cons_of_neg _ (by simpa using hne)]
      exact ih'

theorem mem_candidateLines_iff {el sub : String} {t : LineTable} {e : ℚ}
    {onlyLines : Option (List String)} {endEnergy : ℚ}
    (hnd : (t.map Prod.fst).Nodup) (hmem : (sub, e) ∈ t) :
    (el ++ "_" ++ sub) ∈ candidateLines el t onlyLines endEnergy ↔
      (passOnlyLines onlyLines sub = true ∧ e < endEnergy) := by
  unfold candidateLines
  rw [List.mem_map]
  constructor
  · rintro ⟨p, hp, hb⟩
    have hps : p.1 = sub := (buildLine_inj_right hb)
    have hpe : p = (sub, e) := by
      rcases p with ⟨a, b⟩
      simp only at hps
      subst hps
      have : b = e := by
        have h₁ : subshellEnergy t a = some b :=
          subshellEnergy_of_mem hnd (List.mem_filter.mp hp).1
        have h₂ : subshellEnergy t a = some e := subshellEnergy_of_mem hnd hmem
        rw [h₁] at h₂
        exact Option.some.inj h₂
      rw [this]
    rw [hpe] at hp
    have := (List.mem_filter.mp hp).2
    simp only [Bool.and_eq_true, decide_eq_true_eq] at this
    exact this
  · rintro ⟨hpass, he⟩
    exact ⟨(sub, e), List.mem_filter.mpr ⟨hmem, by simp [hpass, he]⟩, rfl⟩

theorem selectionEndEnergy_eq_min (be high : ℚ) :
    selectionEndEnergy be high = min high be := by
  unfold selectionEndEnergy
  rcases lt_or_ge be high with h | h
  · rw [if_pos h, min_eq_right h.le]
  · rw [if_neg (not_lt.mpr h), min_eq_left h]

/-! ## Claim C4 -/

/-- C4 counterexample: with no beam energy defined, the selector does not
fall back to filtering by the energy-range upper bound (which would keep
`Fe_Ka` and `Fe_La`, both below 10 keV): it fails with the `AttributeError`
of lines 330–334. -/
theorem C4_counterexample :
    getLinesFromElements dbA ⟨none, 10⟩ ["Fe"] false none ≠
      .ok ["Fe" ++ "_" ++ "Ka", "Fe" ++ "_" ++ "La"] ∧
    getLinesFromElements dbA ⟨none, 10⟩ ["Fe"] false none = .error .missingBeamEnergy := by
  constructor
  · decide
  · decide

/-- C4 (amended): when a beam energy is known the selector keeps a candidate
subshell exactly when it passes the `only_lines` filter and its energy is
strictly below `min(energyRange.high, beamEnergy)`; when no beam energy is
known the selection does not fall back to `energyRange.high` — the method
fails with `AttributeError` before examining any element. -/
theorem selector_filter_amended (db : ElementsDB) (ctx : SpectrumContext) :
    (ctx.beamEnergy = none →
      ∀ els onlyOne onlyLines,
        getLinesFromElements db ctx els onlyOne onlyLines = .error .missingBeamEnergy) ∧
    (∀ be el t sub e onlyLines,
      ctx.beamEnergy = some be →
      (t.map Prod.fst).Nodup → (sub, e) ∈ t →
      ((el ++ "_" ++ sub) ∈ candidateLines el t onlyLines (selectionEndEnergy be ctx.highValue) ↔
        (passOnlyLines onlyLines sub = true ∧ e < min ctx.highValue be))) := by
  constructor
  · intro h els onlyOne onlyLines
    unfold getLinesFromElements
    rw [h]
  · intro be el t sub e onlyLines _ hnd hmem
    rw [mem_candidateLines_iff hnd hmem, selectionEndEnergy_eq_min]

/-- C4 witness: the amended theorem applied at concrete inputs, in both the
known-beam and missing-beam cases. -/
theorem selector_filter_amended_witness :
    getLinesFromElements dbA ⟨none, 10⟩ ["Fe"] false none = .error .missingBeamEnergy ∧
    (("Fe" ++ "_" ++ "Ka") ∈
        candidateLines "Fe" [("Ka", 6), ("La", 1)] none (selectionEndEnergy 20 10) ↔
      (passOnlyLines none "Ka" = true ∧ (6 : ℚ) < min 10 20)) := by
  refine ⟨(selector_filter_amended dbA ⟨none, 10⟩).1 rfl ["Fe"] false none,
    (selector_filter_amended dbA ⟨some 20, 10⟩).2 20 "Fe" [("Ka", 6), ("La", 1)] "Ka" 6 none
      rfl (by decide) (by decide)⟩

/-! ## Claim C1 -/

/-- C1 (confirmed): for an element whose filtered candidate list is
non-empty, the selector with `only_one=True` returns exactly one line — the
first candidate in database declaration order whose energy is strictly below
`beam_energy / 2`, or, when no candidate meets that threshold, the last
candidate (`select_this` stays `-1`). -/
theorem selector_only_one (db : ElementsDB) (ctx : SpectrumContext) (be : ℚ)
    (onlyLines : Option (List String)) (el : String) (t : LineTable)
    (hbe : ctx.beamEnergy = some be)
    (hel : dbLines db el = some t)
    (hu : '_' ∉ el.data)
    (hsubs : ∀ p ∈ t, '_' ∉ (p.1 : String).data)
    (hnd : (t.map Prod.fst).Nodup)
    (hne : candidateLines el t onlyLines (selectionEndEnergy be ctx.highValue) ≠ []) :
    ∃ line, getLinesFromElements db ctx [el] true onlyLines = .ok [line] ∧
      (((t.filter (fun p => passOnlyLines onlyLines p.1 &&
            decide (p.2 < selectionEndEnergy be ctx.highValue))).find?
          (fun p => decide (p.2 < be / 2))).elim
        (some line = (candidateLines el t onlyLines (selectionEndEnergy be ctx.highValue)).getLast?)
        (fun p => line = el ++ "_" ++ p.1)) := by
  set endE := selectionEndEnergy be ctx.highValue with hendE
  set filtered := t.filter
    (fun p => passOnlyLines onlyLines p.1 && decide (p.2 < endE)) with hfiltered
  have hcand : candidateLines el t onlyLines endE = filtered.map (fun p => el ++ "_" ++ p.1) :=
    rfl
  -- the predicate used by `chooseOne` agrees, on the candidates, with the
  -- energy comparison on the underlying table entries
  have hpred : ∀ p ∈ filtered,
      ((subshellEnergy t ((splitAll (el ++ "_" ++ p.1)).getD 1 "")).map
        (fun e => decide (e < be / 2))).getD false = decide (p.2 < be / 2) := by
    intro p hp
    have hpt : p ∈ t := (List.mem_filter.mp hp).1
    have hsplit : splitAll (el ++ "_" ++ p.1) = [el, p.1] :=
      splitAll_two el p.1 hu (hsubs p hpt)
    rw [hsplit]
    have : subshellEnergy t p.1 = some p.2 := subshellEnergy_of_mem hnd (by
      rcases p with ⟨a, b⟩; exact hpt)
    simp [this]
  have hchoose : chooseOne t be (candidateLines el t onlyLines endE) =
      (filtered.find? (fun p => decide (p.2 < be / 2))).elim
        ((candidateLines el t onlyLines endE).getLast?.elim [] (fun line => [line]))
        (fun p => [el ++ "_" ++ p.1]) := by
    unfold chooseOne
    rw [hcand, List.find?_map]
    have hc : (List.find? ((fun line =>
        ((subshellEnergy t ((splitAll line).getD 1 "")).map
          (fun e => decide (e < be / 2))).getD false) ∘ (fun p => el ++ "_" ++ p.1)) filtered) =
        filtered.find? (fun p => decide (p.2 < be / 2)) :=
      find?_congr_mem (fun p hp => hpred p hp)
    rw [hc]
    cases filtered.find? (fun p => decide (p.2 < be / 2)) with
    | none => simp [hcand]
    | some p => simp
  have hsel : getLinesFromElements db ctx [el] true onlyLines =
      .ok (selectElementLines t el true onlyLines be endE) := by
    unfold getLinesFromElements
    rw [hbe]
    unfold selectLinesFromElements
    rw [hel]
    unfold selectLinesFromElements
    simp [hendE]
  have hone : selectElementLines t el true onlyLines be endE =
      chooseOne t be (candidateLines el t onlyLines endE) := by
    unfold selectElementLines
    rw [if_pos]
    simp only [Bool.and_eq_true, true_and]
    rw [Bool.not_eq_true', ← Bool.not_eq_true]
    simpa using hne
  rw [hsel, hone, hchoose]
  cases hf : filtered.find? (fun p => decide (p.2 < be / 2)) with
  | some p => exact ⟨el ++ "_" ++ p.1, rfl, rfl⟩
  | none =>
    have hlast : ∃ line, (candidateLines el t onlyLines endE).getLast? = some line := by
      cases hl : (candidateLines el t onlyLines endE).getLast? with
      | none => exact absurd (List.getLast?_eq_none_iff.mp hl) hne
      | some line => exact ⟨line, rfl⟩
    obtain ⟨line, hline⟩ := hlast
    rw [hline]
    exact ⟨line, rfl, rfl⟩

/-- C1 witness: the theorem applied at a concrete database.  For `Fe` with
beam energy 20 keV and range bound 10 keV both candidates survive, and the
first (`Ka` at 6 keV `< 20/2`) is selected. -/
theorem selector_only_one_witness :
    ∃ line, getLinesFromElements dbA ⟨some 20, 10⟩ ["Fe"] true none = .ok [line] ∧
      ((([("Ka", (6 : ℚ)), ("La", 1)].filter (fun p => passOnlyLines none p.1 &&
            decide (p.2 < selectionEndEnergy 20 10))).find?
          (fun p => decide (p.2 < 20 / 2))).elim
        (some line = (candidateLines "Fe" [("Ka", 6), ("La", 1)] none
          (selectionEndEnergy 20 10)).getLast?)
        (fun p => line = "Fe" ++ "_" ++ p.1)) :=
  selector_only_one dbA ⟨some 20, 10⟩ 20 none "Fe" [("Ka", 6), ("La", 1)]
    rfl (by decide) (by decide) (by decide) (by decide) (by decide)

/-! ## Claim C8 -/

/-- C8 (confirmed): in direct mode, when every requested line resolves in the
database, the extractor returns `ok` with exactly one intensity per input
line, index-aligned: the `i`-th result is the host signal reduced over the
closed window `lineEnergy ± integrationWindowFactor * fwhmAt(detectorFWHM_MnKa,
lineEnergy) / 2` of the `i`-th input line. -/
theorem direct_intensities_eq {α : Type} (db : ElementsDB) (E_ref f factor : ℚ)
    (reduce : ℝ → ℝ → α) (lines : List String)
    (h : ∀ l ∈ lines, (lineEnergy db l).isSome) :
    getLinesIntensityDirect db E_ref f factor reduce lines =
      .ok (lines.map (fun l =>
        reduce
          ((((lineEnergy db l).getD 0 : ℚ) : ℝ) -
            (factor : ℝ) * get_FWHM_at_Energy E_ref f ((lineEnergy db l).getD 0) / 2)
          ((((lineEnergy db l).getD 0 : ℚ) : ℝ) +
            (factor : ℝ) * get_FWHM_at_Energy E_ref f ((lineEnergy db l).getD 0) / 2))) := by
  induction lines with
  | nil => rfl
  | cons l rest ih =>
    have hl := h l (List.mem_cons_self l rest)
    rcases he : lineEnergy db l with _ | e
    · rw [he] at hl; simp at hl
    · have hrest := ih (fun x hx => h x (List.mem_cons_of_mem l hx))
      simp only [getLinesIntensityDirect, lineIntensityDirect, he, hrest, List.map_cons,
        Option.getD_some]

/-- C8 witness: the theorem applied at a concrete input, with the abstract
host-signal reduction instantiated by the pair constructor (so the result
records exactly the integration window bounds passed to the host signal). -/
theorem direct_intensities_witness :
    getLinesIntensityDirect dbA 6 130 2 (fun a b => (a, b)) ["Mn_Ka"] =
      .ok ((["Mn_Ka"] : List String).map (fun l =>
        ((((lineEnergy dbA l).getD 0 : ℚ) : ℝ) -
            ((2 : ℚ) : ℝ) * get_FWHM_at_Energy 6 130 ((lineEnergy dbA l).getD 0) / 2,
         (((lineEnergy dbA l).getD 0 : ℚ) : ℝ) +
            ((2 : ℚ) : ℝ) * get_FWHM_at_Energy 6 130 ((lineEnergy dbA l).getD 0) / 2))) :=
  direct_intensities_eq dbA 6 130 2 (fun a b => (a, b)) ["Mn_Ka"] (by decide)

/-- C9 witness: the amended theorem applied at a concrete store. -/
theorem getResult_amended_witness :
    getResult "Ni" [(⟨"Int Fe_Ka", 3⟩ : StoreEntry)] = .error .resultNotFound ∧
    (strIn "Fe" (⟨"Int Fe_Ka", 3⟩ : StoreEntry).title = true ∧
      ∃ pre post, [(⟨"Int Fe_Ka", 3⟩ : StoreEntry)] = pre ++ ⟨"Int Fe_Ka", 3⟩ :: post ∧
        ∀ x ∈ pre, strIn "Fe" x.title = false) := by
  refine ⟨getResult_amended.1 "Ni" _ (by decide),
    getResult_amended.2 "Fe" [⟨"Int Fe_Ka", 3⟩] ⟨"Int Fe_Ka", 3⟩ (by decide)⟩

/-! ## Lemmas about validity and the database -/

theorem dbHasElement_iff {db : ElementsDB} {el : String} :
    dbHasElement db el = true ↔ (dbLines db el).isSome = true := by
  unfold dbHasElement dbLines
  cases db.find? (fun p => p.1 == el) <;> simp

theorem DBWF_of_dbLines {db : ElementsDB} {el : String} {t : LineTable}
    (hdb : DBWellFormed db) (h : dbLines db el = some t) :
    '_' ∉ el.data ∧ (∀ p ∈ t, '_' ∉ (p.1 : String).data) ∧ (t.map Prod.fst).Nodup := by
  unfold dbLines at h
  cases hf : db.find? (fun p => p.1 == el) with
  | none => rw [hf] at h; simp at h
  | some pr =>
    rw [hf] at h
    have hmem := List.mem_of_find?_eq_some hf
    have hkey : pr.1 = el := by simpa using List.find?_some hf
    have ht : pr.2 = t := by simpa using h
    have := hdb pr hmem
    rw [hkey, ht] at this
    exact this

theorem lineValidB_build {db : ElementsDB} {el sub : String} {t : LineTable} {e : ℚ}
    (hdb : DBWellFormed db) (hel : dbLines db el = some t) (hmem : (sub, e) ∈ t) :
    lineValidB db (el ++ "_" ++ sub) = true := by
  obtain ⟨hu, hsubs, _⟩ := DBWF_of_dbLines hdb hel
  unfold lineValidB
  simp only [splitLine_two el sub hu (hsubs (sub, e) hmem), hel]
  have hfind : (t.find? (fun p => p.1 == sub)).isSome = true :=
    List.find?_isSome.mpr ⟨(sub, e), hmem, by simp⟩
  unfold subshellEnergy
  cases hf : t.find? (fun p => p.1 == sub) with
  | none => rw [hf] at hfind; simp at hfind
  | some p => rfl

theorem dbHas_implied_of_valid {db : ElementsDB} {line : String}
    (h : lineValidB db line = true) :
    dbHasElement db (impliedElement line) = true := by
  unfold lineValidB at h
  cases hs : splitLine line with
  | error e => simp [hs] at h
  | ok p =>
    obtain ⟨el, sub⟩ := p
    simp only [hs] at h
    rw [impliedElement_of_splitLine hs]
    cases hl : dbLines db el with
    | none => simp [hl] at h
    | some t => rw [dbHasElement_iff, hl]; rfl

/-! ## Lemmas about the validation loop -/

theorem validateLines_ok {db : ElementsDB} :
    ∀ {lines els xl els' xl' : List String},
      validateLines db lines els xl = .ok (els', xl') →
      (∀ l ∈ lines, lineValidB db l = true) ∧
      (∀ x, x ∈ els' ↔ x ∈ els ∨ x ∈ lines.map impliedElement) ∧
      (∀ x, x ∈ xl' ↔ x ∈ xl ∨ x ∈ lines) := by
  intro lines
  induction lines with
  | nil =>
    intro els xl els' xl' h
    unfold validateLines at h
    obtain ⟨h₁, h₂⟩ : els = els' ∧ xl = xl' := by simpa using h
    subst h₁; subst h₂
    exact ⟨by simp, by simp, by simp⟩
  | cons line rest ih =>
    intro els xl els' xl' h
    unfold validateLines at h
    cases hs : splitLine line with
    | error e => simp [hs] at h
    | ok p =>
      obtain ⟨element, subshell⟩ := p
      simp only [hs] at h
      cases hl : dbLines db element with
      | none => simp [hl] at h
      | some t =>
        simp only [hl] at h
        by_cases he : (subshellEnergy t subshell).isSome = true
        · rw [if_pos he] at h
          obtain ⟨hv, hE, hX⟩ := ih h
          have hvline : lineValidB db line = true := by
            unfold lineValidB
            simp only [hs, hl]
            exact he
          refine ⟨?_, ?_, ?_⟩
          · intro l hl'
            rcases List.mem_cons.mp hl' with h' | h'
            · rw [h']; exact hvline
            · exact hv l h'
          · intro x
            rw [hE x]
            simp only [List.mem_cons, List.map_cons, impliedElement_of_splitLine hs]
            tauto
          · intro x
            rw [hX x]
            simp only [List.mem_cons]
            tauto
        · rw [if_neg he] at h
          simp at h

theorem validateLines_isOk {db : ElementsDB} :
    ∀ {lines : List String}, (∀ l ∈ lines, lineValidB db l = true) →
      ∀ els xl, ∃ els' xl', validateLines db lines els xl = .ok (els', xl') := by
  intro lines
  induction lines with
  | nil => intro _ els xl; exact ⟨els, xl, rfl⟩
  | cons line rest ih =>
    intro h els xl
    have hline := h line (List.mem_cons_self line rest)
    unfold lineValidB at hline
    cases hs : splitLine line with
    | error e => simp [hs] at hline
    | ok p =>
      obtain ⟨element, subshell⟩ := p
      simp only [hs] at hline
      cases hl : dbLines db element with
      | none => simp [hl] at hline
      | some t =>
        simp only [hl] at hline
        obtain ⟨els', xl', hrec⟩ := ih (fun l hl' => h l (List.mem_cons_of_mem line hl'))
          (element :: els) (line :: xl)
        refine ⟨els', xl', ?_⟩
        unfold validateLines
        simp only [hs, hl, if_pos hline]
        exact hrec

/-! ## Lemmas about `add_elements` and the `add_lines` tail -/

theorem addElements_ok {db : ElementsDB} {els : List String} {s s₂ : RState}
    (h : addElements db els s = .ok s₂) :
    (∀ el ∈ els, dbHasElement db el = true) ∧
    s₂ = { elements := some (canon (elsD s ++ els)), xrayLines := s.xrayLines } := by
  unfold addElements at h
  cases hf : els.find? (fun el => !dbHasElement db el) with
  | some bad => simp [hf] at h
  | none =>
    simp only [hf, Except.ok.injEq] at h
    refine ⟨?_, ?_⟩
    · intro el hel
      have := List.find?_eq_none.mp hf el hel
      simpa using this
    · cases s
      simpa [elsD] using h.symm

theorem addElements_isOk {db : ElementsDB} {els : List String} (s : RState)
    (h : ∀ el ∈ els, dbHasElement db el = true) :
    addElements db els s =
      .ok { elements := some (canon (elsD s ++ els)), xrayLines := s.xrayLines } := by
  unfold addElements
  rw [List.find?_eq_none.mpr (fun el hel => by simp [h el hel])]
  cases s
  rfl

theorem addElements_error_state {db : ElementsDB} {els : List String} {s s' : RState}
    {e : Err} (h : addElements db els s = .error (e, s')) : s' = s := by
  unfold addElements at h
  cases hf : els.find? (fun el => !dbHasElement db el) with
  | some bad =>
    simp only [hf, Except.error.injEq, Prod.mk.injEq] at h
    exact h.2.symm
  | none => simp [hf] at h

theorem addLinesFinish_ok {db : ElementsDB} {elements xl : List String} {s₁ sF : RState}
    (h : addLinesFinish db elements xl s₁ = .ok sF) :
    (∀ el ∈ elements, dbHasElement db el = true) ∧
    sF = { elements := some (canon (elsD s₁ ++ elements)),
           xrayLines := some (canon (xl ++ xlD s₁)) } := by
  unfold addLinesFinish at h
  cases ha : addElements db elements s₁ with
  | error es => simp [ha] at h
  | ok s₂ =>
    simp only [ha, Except.ok.injEq] at h
    obtain ⟨hv, hs₂⟩ := addElements_ok ha
    refine ⟨hv, ?_⟩
    rw [← h, hs₂]
    simp [xlD]

theorem addLinesFinish_isOk {db : ElementsDB} {elements xl : List String} (s₁ : RState)
    (h : ∀ el ∈ elements, dbHasElement db el = true) :
    addLinesFinish db elements xl s₁ =
      .ok { elements := some (canon (elsD s₁ ++ elements)),
            xrayLines := some (canon (xl ++ xlD s₁)) } := by
  unfold addLinesFinish
  rw [addElements_isOk s₁ h]
  simp [xlD]

theorem addLinesFinish_error_state {db : ElementsDB} {elements xl : List String}
    {s₁ s' : RState} {e : Err}
    (h : addLinesFinish db elements xl s₁ = .error (e, s')) : s' = s₁ := by
  unfold addLinesFinish at h
  cases ha : addElements db elements s₁ with
  | error es =>
    obtain ⟨e', s''⟩ := es
    simp only [ha, Except.error.injEq, Prod.mk.injEq] at h
    rw [← h.2]
    exact addElements_error_state ha
  | ok s₂ => simp [ha] at h

/-! ## Lemmas about the selection loop -/

theorem chooseOne_subset {t : LineTable} {be : ℚ} {cands : List String} :
    ∀ line ∈ chooseOne t be cands, line ∈ cands := by
  intro line h
  unfold chooseOne at h
  cases hf : cands.find? (fun line =>
      ((subshellEnergy t ((splitAll line).getD 1 "")).map
        (fun e => decide (e < be / 2))).getD false) with
  | some l =>
    rw [hf] at h
    have : line = l := by simpa using h
    rw [this]
    exact List.mem_of_find?_eq_some hf
  | none =>
    rw [hf] at h
    cases hl : cands.getLast? with
    | none => rw [hl] at h; simp at h
    | some l =>
      rw [hl] at h
      have : line = l := by simpa using h
      rw [this]
      exact List.mem_of_mem_getLast? hl

theorem selectElementLines_subset {t : LineTable} {el : String} {oo : Bool}
    {ol : Option (List String)} {be endE : ℚ} :
    ∀ line ∈ selectElementLines t el oo ol be endE, line ∈ candidateLines el t ol endE := by
  intro line h
  unfold selectElementLines at h
  by_cases hc : (oo && !(candidateLines el t ol endE).isEmpty) = true
  · rw [if_pos hc] at h
    exact chooseOne_subset line h
  · rw [if_neg hc] at h
    exact h

theorem selectElementLines_eq_nil_iff {t : LineTable} {el : String} {oo : Bool}
    {ol : Option (List String)} {be endE : ℚ} :
    selectElementLines t el oo ol be endE = [] ↔ candidateLines el t ol endE = [] := by
  unfold selectElementLines
  by_cases hc : (oo && !(candidateLines el t ol endE).isEmpty) = true
  · rw [if_pos hc]
    have hne : candidateLines el t ol endE ≠ [] := by
      intro hnil
      rw [hnil] at hc
      simp at hc
    constructor
    · intro h
      exfalso
      unfold chooseOne at h
      cases hf : (candidateLines el t ol endE).find? (fun line =>
          ((subshellEnergy t ((splitAll line).getD 1 "")).map
            (fun e => decide (e < be / 2))).getD false) with
      | some l => rw [hf] at h; simp at h
      | none =>
        rw [hf] at h
        cases hl : (candidateLines el t ol endE).getLast? with
        | none => exact hne (List.getLast?_eq_none_iff.mp hl)
        | some l => rw [hl] at h; simp at h
    · intro h
      exact absurd h hne
  · rw [if_neg hc]

theorem mem_candidateLines_shape {line el : String} {t : LineTable}
    {ol : Option (List String)} {endE : ℚ}
    (h : line ∈ candidateLines el t ol endE) :
    ∃ sub e, (sub, e) ∈ t ∧ line = el ++ "_" ++ sub := by
  unfold candidateLines at h
  obtain ⟨p, hp, hb⟩ := List.mem_map.mp h
  exact ⟨p.1, p.2, (List.mem_filter.mp hp).1, hb.symm⟩

theorem select_ok_elements {db : ElementsDB} {be endE : ℚ} {oo : Bool}
    {ol : Option (List String)} :
    ∀ {els out : List String},
      selectLinesFromElements db be endE oo ol els = .ok out →
      ∀ el ∈ els, ∃ t, dbLines db el = some t ∧
        ∀ line ∈ selectElementLines t el oo ol be endE, line ∈ out := by
  intro els
  induction els with
  | nil => intro out _ el hel; exact absurd hel (List.not_mem_nil el)
  | cons el₀ rest ih =>
    intro out h el hel
    unfold selectLinesFromElements at h
    cases hl : dbLines db el₀ with
    | none => rw [hl] at h; simp at h
    | some t₀ =>
      rw [hl] at h
      cases hr : selectLinesFromElements db be endE oo ol rest with
      | error e => rw [hr] at h; simp at h
      | ok restOut =>
        rw [hr] at h
        have hout : out = selectElementLines t₀ el₀ oo ol be endE ++ restOut := by
          simpa using h.symm
        rcases List.mem_cons.mp hel with h' | h'
        · subst h'
          exact ⟨t₀, hl, fun line hline => hout ▸ List.mem_append_left _ hline⟩
        · obtain ⟨t, ht, hsub⟩ := ih hr el h'
          exact ⟨t, ht, fun line hline => hout ▸ List.mem_append_right _ (hsub line hline)⟩

theorem select_ok_out {db : ElementsDB} {be endE : ℚ} {oo : Bool}
    {ol : Option (List String)} :
    ∀ {els out : List String},
      selectLinesFromElements db be endE oo ol els = .ok out →
      ∀ line ∈ out, ∃ el ∈ els, ∃ t, dbLines db el = some t ∧
        line ∈ selectElementLines t el oo ol be endE := by
  intro els
  induction els with
  | nil =>
    intro out h line hline
    unfold selectLinesFromElements at h
    obtain rfl : ([] : List String) = out := by simpa using h
    exact absurd hline (List.not_mem_nil line)
  | cons el₀ rest ih =>
    intro out h line hline
    unfold selectLinesFromElements at h
    cases hl : dbLines db el₀ with
    | none => rw [hl] at h; simp at h
    | some t₀ =>
      rw [hl] at h
      cases hr : selectLinesFromElements db be endE oo ol rest with
      | error e => rw [hr] at h; simp at h
      | ok restOut =>
        rw [hr] at h
        have hout : out = selectElementLines t₀ el₀ oo ol be endE ++ restOut := by
          simpa using h.symm
        rw [hout] at hline
        rcases List.mem_append.mp hline with h' | h'
        · exact ⟨el₀, List.mem_cons_self el₀ rest, t₀, hl, h'⟩
        · obtain ⟨el, hel, t, ht, hmem⟩ := ih hr line h'
          exact ⟨el, List.mem_cons_of_mem el₀ hel, t, ht, hmem⟩

theorem select_all_empty {db : ElementsDB} {be endE : ℚ} {oo : Bool}
    {ol : Option (List String)} :
    ∀ {els : List String},
      (∀ el ∈ els, ∃ t, dbLines db el = some t ∧ candidateLines el t ol endE = []) →
      selectLinesFromElements db be endE oo ol els = .ok [] := by
  intro els
  induction els with
  | nil => intro _; rfl
  | cons el₀ rest ih =>
    intro h
    obtain ⟨t₀, hl, hc⟩ := h el₀ (List.mem_cons_self el₀ rest)
    have hrest := ih (fun el hel => h el (List.mem_cons_of_mem el₀ hel))
    have hsel : selectElementLines t₀ el₀ oo ol be endE = [] :=
      selectElementLines_eq_nil_iff.mpr hc
    unfold selectLinesFromElements
    simp [hl, hrest, hsel]

theorem select_out_valid {db : ElementsDB} {el : String} {t : LineTable} {oo : Bool}
    {ol : Option (List String)} {be endE : ℚ} {line : String}
    (hdb : DBWellFormed db) (hel : dbLines db el = some t)
    (hsel : line ∈ selectElementLines t el oo ol be endE) :
    lineValidB db line = true ∧ impliedElement line = el := by
  have hcand := selectElementLines_subset line hsel
  obtain ⟨sub, e, hmem, rfl⟩ := mem_candidateLines_shape hcand
  obtain ⟨hu, _, _⟩ := DBWF_of_dbLines hdb hel
  exact ⟨lineValidB_build hdb hel hmem, impliedElement_build el sub hu⟩

/-! ## The `add_lines` postcondition -/

theorem addLinesPost_of_finish {db : ElementsDB} {ctx : SpectrumContext}
    {lines elements xl : List String} {ol : Option (List String)} {s sMid s₁ : RState}
    (hmemE : ∀ x, x ∈ elements ↔ x ∈ (xlD s).map impliedElement ∨ x ∈ lines.map impliedElement)
    (hmemX : ∀ x, x ∈ xl ↔ x ∈ xlD s ∨ x ∈ lines)
    (hlinesValid : ∀ l ∈ lines, lineValidB db l = true)
    (hMelsGrow : ∀ x ∈ elsD s, x ∈ elsD sMid)
    (hMimpliedIn : ∀ line ∈ xlD sMid, impliedElement line ∈ elsD sMid ∨ line ∈ xl)
    (hMelsFrom : ∀ el ∈ elsD sMid, el ∈ elsD s ∨ ∃ line ∈ xlD sMid, impliedElement line = el)
    (hMimpliedValid : ∀ line ∈ xlD sMid,
      dbHasElement db (impliedElement line) = true ∨ line ∈ xl)
    (hMxlFrom : ∀ line ∈ xlD sMid, line ∈ xlD s ∨ lineValidB db line = true)
    (hMuncovered : ∀ el ∈ elsD sMid, el ∉ elements →
      (¬ ∃ line, (line ∈ xl ∨ line ∈ xlD sMid) ∧ impliedElement line = el) →
      ∃ be t, ctx.beamEnergy = some be ∧ dbLines db el = some t ∧
        candidateLines el t ol (selectionEndEnergy be ctx.highValue) = [])
    (hfin : addLinesFinish db elements xl sMid = .ok s₁) :
    AddLinesPost db ctx lines ol s s₁ := by
  obtain ⟨helok, hs₁⟩ := addLinesFinish_ok hfin
  subst hs₁
  have hEmem : ∀ x, x ∈ canon (elsD sMid ++ elements) ↔ x ∈ elsD sMid ∨ x ∈ elements := by
    intro x
    rw [mem_canon, List.mem_append]
  have hLmem : ∀ x, x ∈ canon (xl ++ xlD sMid) ↔ x ∈ xl ∨ x ∈ xlD sMid := by
    intro x
    rw [mem_canon, List.mem_append]
  have hElemCovered : ∀ el ∈ elements,
      ∃ line, line ∈ canon (xl ++ xlD sMid) ∧ impliedElement line = el := by
    intro el hel
    rcases (hmemE el).mp hel with h' | h'
    · obtain ⟨line, hline, him⟩ := List.mem_map.mp h'
      exact ⟨line, (hLmem line).mpr (Or.inl ((hmemX line).mpr (Or.inl hline))), him⟩
    · obtain ⟨line, hline, him⟩ := List.mem_map.mp h'
      exact ⟨line, (hLmem line).mpr (Or.inl ((hmemX line).mpr (Or.inr hline))), him⟩
  refine ⟨rfl, rfl, (canon_canon _).symm, (canon_canon _).symm, ?_, ?_, ?_, ?_, ?_, ?_,
    hlinesValid, ?_, ?_⟩
  · -- xlGrow
    intro x hx
    exact (hLmem x).mpr (Or.inl ((hmemX x).mpr (Or.inl hx)))
  · -- linesIn
    intro x hx
    exact (hLmem x).mpr (Or.inl ((hmemX x).mpr (Or.inr hx)))
  · -- elsGrow
    intro x hx
    exact (hEmem x).mpr (Or.inl (hMelsGrow x hx))
  · -- impliedIn
    intro line hline
    rcases (hLmem line).mp hline with h' | h'
    · have : impliedElement line ∈ elements := by
        rcases (hmemX line).mp h' with h'' | h''
        · exact (hmemE _).mpr (Or.inl (List.mem_map.mpr ⟨line, h'', rfl⟩))
        · exact (hmemE _).mpr (Or.inr (List.mem_map.mpr ⟨line, h'', rfl⟩))
      exact (hEmem _).mpr (Or.inr this)
    · rcases hMimpliedIn line h' with h'' | h''
      · exact (hEmem _).mpr (Or.inl h'')
      · have : impliedElement line ∈ elements := by
          rcases (hmemX line).mp h'' with h₃ | h₃
          · exact (hmemE _).mpr (Or.inl (List.mem_map.mpr ⟨line, h₃, rfl⟩))
          · exact (hmemE _).mpr (Or.inr (List.mem_map.mpr ⟨line, h₃, rfl⟩))
        exact (hEmem _).mpr (Or.inr this)
  · -- elsFrom
    intro el hel
    rcases (hEmem el).mp hel with h' | h'
    · rcases hMelsFrom el h' with h'' | ⟨line, hline, him⟩
      · exact Or.inl h''
      · exact Or.inr ⟨line, (hLmem line).mpr (Or.inr hline), him⟩
    · obtain ⟨line, hline, him⟩ := hElemCovered el h'
      exact Or.inr ⟨line, hline, him⟩
  · -- impliedValid
    intro line hline
    have hofxl : line ∈ xl → dbHasElement db (impliedElement line) = true := by
      intro h'
      have : impliedElement line ∈ elements := by
        rcases (hmemX line).mp h' with h'' | h''
        · exact (hmemE _).mpr (Or.inl (List.mem_map.mpr ⟨line, h'', rfl⟩))
        · exact (hmemE _).mpr (Or.inr (List.mem_map.mpr ⟨line, h'', rfl⟩))
      exact helok _ this
    rcases (hLmem line).mp hline with h' | h'
    · exact hofxl h'
    · rcases hMimpliedValid line h' with h'' | h''
      · exact h''
      · exact hofxl h''
  · -- xlFrom
    intro line hline
    rcases (hLmem line).mp hline with h' | h'
    · rcases (hmemX line).mp h' with h'' | h''
      · exact Or.inl h''
      · exact Or.inr (hlinesValid line h'')
    · exact hMxlFrom line h'
  · -- uncovered
    intro el hel hnc
    rcases (hEmem el).mp hel with h' | h'
    · have hnotelem : el ∉ elements := by
        intro hmem
        obtain ⟨line, hline, him⟩ := hElemCovered el hmem
        exact hnc ⟨line, hline, him⟩
      refine hMuncovered el h' hnotelem ?_
      rintro ⟨line, hor, him⟩
      exact hnc ⟨line, (hLmem line).mpr hor, him⟩
    · obtain ⟨line, hline, him⟩ := hElemCovered el h'
      exact absurd ⟨line, hline, him⟩ hnc

theorem addLines_ok_post {db : ElementsDB} {ctx : SpectrumContext} (hdb : DBWellFormed db) :
    ∀ (fuel : Nat) {lines : List String} {oo : Bool} {ol : Option (List String)}
      {s s₁ : RState},
      addLines db ctx fuel lines oo ol s = .ok s₁ →
      AddLinesPost db ctx lines ol s s₁ := by
  intro fuel
  induction fuel with
  | zero =>
    intro lines oo ol s s₁ h
    simp [addLines] at h
  | succ fuel ih =>
    intro lines oo ol s s₁ h
    unfold addLines at h
    cases hval : validateLines db lines ((xlD s).map impliedElement) (xlD s) with
    | error e => simp [hval] at h
    | ok p =>
      obtain ⟨elements, xl⟩ := p
      simp only [hval] at h
      obtain ⟨hlinesValid, hmemE₀, hmemX₀⟩ := validateLines_ok hval
      have hmemE : ∀ x, x ∈ elements ↔
          x ∈ (xlD s).map impliedElement ∨ x ∈ lines.map impliedElement := by
        intro x
        rw [hmemE₀ x]
      have hmemX : ∀ x, x ∈ xl ↔ x ∈ xlD s ∨ x ∈ lines := by
        intro x
        rw [hmemX₀ x]
      cases hsel : s.elements with
      | none =>
        simp only [hsel] at h
        refine addLinesPost_of_finish hmemE hmemX hlinesValid
          (fun x hx => hx)
          (fun line hline => Or.inr ((hmemX line).mpr (Or.inl hline)))
          (fun el hel => Or.inl hel)
          (fun line hline => Or.inr ((hmemX line).mpr (Or.inl hline)))
          (fun line hline => Or.inl hline)
          ?_ h
        intro el hel hne hnc
        exfalso
        rw [show elsD s = [] from by simp [elsD, hsel]] at hel
        exact absurd hel (List.not_mem_nil el)
      | some storedEls =>
        simp only [hsel] at h
        have helsD : elsD s = storedEls := by simp [elsD, hsel]
        by_cases hex : (storedEls.filter (fun el => !elements.contains el)).isEmpty = true
        · rw [if_pos hex] at h
          refine addLinesPost_of_finish hmemE hmemX hlinesValid
            (fun x hx => hx)
            (fun line hline => Or.inr ((hmemX line).mpr (Or.inl hline)))
            (fun el hel => Or.inl hel)
            (fun line hline => Or.inr ((hmemX line).mpr (Or.inl hline)))
            (fun line hline => Or.inl hline)
            ?_ h
          intro el hel hnotelem hnc
          exfalso
          rw [helsD] at hel
          have hf : el ∈ storedEls.filter (fun el => !elements.contains el) :=
            List.mem_filter.mpr ⟨hel, by simp [hnotelem]⟩
          rw [List.isEmpty_iff.mp hex] at hf
          exact absurd hf (List.not_mem_nil el)
        · rw [if_neg hex] at h
          cases hgl : getLinesFromElements db ctx
              (storedEls.filter (fun el => !elements.contains el)) oo ol with
          | error e =>
            simp only [hgl] at h
            exact absurd h (by simp)
          | ok newLines =>
            simp only [hgl] at h
            obtain ⟨be, hbe⟩ : ∃ be, ctx.beamEnergy = some be := by
              unfold getLinesFromElements at hgl
              cases hb : ctx.beamEnergy with
              | none => rw [hb] at hgl; simp at hgl
              | some be => exact ⟨be, rfl⟩
            have hglsel : selectLinesFromElements db be
                (selectionEndEnergy be ctx.highValue) oo ol
                (storedEls.filter (fun el => !elements.contains el)) = .ok newLines := by
              unfold getLinesFromElements at hgl
              rw [hbe] at hgl
              exact hgl
            by_cases hnew : newLines.isEmpty = true
            · rw [if_pos hnew] at h
              have hnewnil : newLines = [] := List.isEmpty_iff.mp hnew
              refine addLinesPost_of_finish hmemE hmemX hlinesValid
                (fun x hx => hx)
                (fun line hline => Or.inr ((hmemX line).mpr (Or.inl hline)))
                (fun el hel => Or.inl hel)
                (fun line hline => Or.inr ((hmemX line).mpr (Or.inl hline)))
                (fun line hline => Or.inl hline)
                ?_ h
              intro el hel hnotelem hnc
              rw [helsD] at hel
              have hextra : el ∈ storedEls.filter (fun el => !elements.contains el) :=
                List.mem_filter.mpr ⟨hel, by simp [hnotelem]⟩
              obtain ⟨t, ht, hsub⟩ := select_ok_elements hglsel el hextra
              refine ⟨be, t, hbe, ht, ?_⟩
              by_contra hcand
              have hne : selectElementLines t el oo ol be
                  (selectionEndEnergy be ctx.highValue) ≠ [] := by
                intro hnil
                exact hcand (selectElementLines_eq_nil_iff.mp hnil)
              obtain ⟨line, hline⟩ := List.exists_mem_of_ne_nil _ hne
              have hout := hsub line hline
              rw [hnewnil] at hout
              exact absurd hout (List.not_mem_nil line)
            · rw [if_neg hnew] at h
              cases hrec : addLines db ctx fuel newLines true (some ["Ka", "La", "Ma"]) s with
              | error es =>
                simp only [hrec] at h
                exact absurd h (by simp)
              | ok s₂ =>
                simp only [hrec] at h
                have post := ih hrec
                refine addLinesPost_of_finish hmemE hmemX hlinesValid
                  post.elsGrow
                  (fun line hline => Or.inl (post.impliedIn line hline))
                  post.elsFrom
                  (fun line hline => Or.inl (post.impliedValid line hline))
                  post.xlFrom
                  ?_ h
                intro el hel hnotelem hnc
                have hels : el ∈ elsD s := by
                  rcases post.elsFrom el hel with h' | ⟨line, hline, him⟩
                  · exact h'
                  · exact absurd ⟨line, Or.inr hline, him⟩ hnc
                rw [helsD] at hels
                have hextra : el ∈ storedEls.filter (fun el => !elements.contains el) :=
                  List.mem_filter.mpr ⟨hels, by simp [hnotelem]⟩
                obtain ⟨t, ht, hsub⟩ := select_ok_elements hglsel el hextra
                refine ⟨be, t, hbe, ht, ?_⟩
                by_contra hcand
                have hne : selectElementLines t el oo ol be
                    (selectionEndEnergy be ctx.highValue) ≠ [] := by
                  intro hnil
                  exact hcand (selectElementLines_eq_nil_iff.mp hnil)
                obtain ⟨line, hline⟩ := List.exists_mem_of_ne_nil _ hne
                have hinNew := hsub line hline
                have hinS₂ : line ∈ xlD s₂ := post.linesIn line hinNew
                have hval2 := select_out_valid hdb ht hline
                exact hnc ⟨line, Or.inr hinS₂, hval2.2⟩

/-! ## Atomicity of the add operations -/

theorem addLines_error_state {db : ElementsDB} {ctx : SpectrumContext}
    (hdb : DBWellFormed db) :
    ∀ (fuel : Nat) {lines : List String} {oo : Bool} {ol : Option (List String)}
      {s : RState} {e : Err} {s' : RState},
      addLines db ctx fuel lines oo ol s = .error (e, s') → s' = s := by
  intro fuel
  induction fuel with
  | zero =>
    intro lines oo ol s e s' h
    simp only [addLines, Except.error.injEq, Prod.mk.injEq] at h
    exact h.2.symm
  | succ fuel ih =>
    intro lines oo ol s e s' h
    unfold addLines at h
    cases hval : validateLines db lines ((xlD s).map impliedElement) (xlD s) with
    | error e₀ =>
      simp only [hval, Except.error.injEq, Prod.mk.injEq] at h
      exact h.2.symm
    | ok p =>
      obtain ⟨elements, xl⟩ := p
      simp only [hval] at h
      obtain ⟨hlinesValid, _, _⟩ := validateLines_ok hval
      cases hsel : s.elements with
      | none =>
        simp only [hsel] at h
        exact addLinesFinish_error_state h
      | some storedEls =>
        simp only [hsel] at h
        by_cases hex : (storedEls.filter (fun el => !elements.contains el)).isEmpty = true
        · rw [if_pos hex] at h
          exact addLinesFinish_error_state h
        · rw [if_neg hex] at h
          cases hgl : getLinesFromElements db ctx
              (storedEls.filter (fun el => !elements.contains el)) oo ol with
          | error e₀ =>
            simp only [hgl, Except.error.injEq, Prod.mk.injEq] at h
            exact h.2.symm
          | ok newLines =>
            simp only [hgl] at h
            by_cases hnew : newLines.isEmpty = true
            · rw [if_pos hnew] at h
              exact addLinesFinish_error_state h
            · rw [if_neg hnew] at h
              cases hrec : addLines db ctx fuel newLines true (some ["Ka", "La", "Ma"]) s with
              | error es =>
                obtain ⟨e₀, s₀⟩ := es
                simp only [hrec, Except.error.injEq, Prod.mk.injEq] at h
                rw [← h.2]
                exact ih hrec
              | ok s₂ =>
                simp only [hrec] at h
                have post := addLines_ok_post hdb fuel hrec
                have hv : ∀ el ∈ elements, dbHasElement db el = true := by
                  intro el hel
                  obtain ⟨_, hmemE, _⟩ := validateLines_ok hval
                  rcases (hmemE el).mp hel with h' | h'
                  · obtain ⟨line, hline, him⟩ := List.mem_map.mp h'
                    rw [← him]
                    exact post.impliedValid line (post.xlGrow line hline)
                  · obtain ⟨line, hline, him⟩ := List.mem_map.mp h'
                    rw [← him]
                    exact dbHas_implied_of_valid (hlinesValid line hline)
                rw [addLinesFinish_isOk s₂ hv] at h
                exact absurd h (by simp)

/-- C10 (confirmed): failing `addElements` and `addLines` calls are atomic.
Every raise — a malformed identifier, an unknown element or subshell, the
missing-beam-energy error, or recursion-bound exhaustion — happens before the
first metadata write, so the error always carries back exactly the state the
call started from.  (`addElements` validates before its single write;
`addLines` validates the explicit lines first, and a failure after the inner
recursive call has written is impossible, because the recursion's own
`add_elements` already validated every element the outer call will submit.) -/
theorem add_ops_atomic (db : ElementsDB) (ctx : SpectrumContext) (hdb : DBWellFormed db) :
    (∀ (els : List String) (s : RState) (e : Err) (s' : RState),
      addElements db els s = .error (e, s') → s' = s) ∧
    (∀ (fuel : Nat) (lines : List String) (oo : Bool) (ol : Option (List String))
      (s : RState) (e : Err) (s' : RState),
      addLines db ctx fuel lines oo ol s = .error (e, s') → s' = s) :=
  ⟨fun _ _ _ _ h => addElements_error_state h,
   fun fuel _ _ _ _ _ _ h => addLines_error_state hdb fuel h⟩

/-- C10 witness: the theorem applied to a concrete failing call — a malformed
explicit line — whose error carries back the unchanged starting state. -/
theorem add_ops_atomic_witness :
    ({ elements := some ["Fe"], xrayLines := none } : RState) =
      { elements := some ["Fe"], xrayLines := none } ∧
    addLines dbA ⟨some 20, 10⟩ 1 ["FeKa"] false none ⟨some ["Fe"], none⟩ =
      .error (.malformedLine "FeKa", ⟨some ["Fe"], none⟩) :=
  ⟨(add_ops_atomic dbA ⟨some 20, 10⟩ (by decide)).2 1 ["FeKa"] false none
      ⟨some ["Fe"], none⟩ (.malformedLine "FeKa") ⟨some ["Fe"], none⟩ (by decide),
   by decide⟩

/-! ## Idempotence of `add_lines` -/

/-- C6 (confirmed, strengthened): a second `add_lines` call with the same
arguments from the state a successful call produced succeeds, needs no
recursion, and changes nothing — so the stored line set (indeed the whole
registry state) after two calls equals the state after one. -/
theorem addLines_idempotent (db : ElementsDB) (ctx : SpectrumContext)
    (hdb : DBWellFormed db) {fuel : Nat} {lines : List String} {oo : Bool}
    {ol : Option (List String)} {s s₁ : RState}
    (h : addLines db ctx fuel lines oo ol s = .ok s₁)
    (fuel₂ : Nat) (hf₂ : 0 < fuel₂) :
    addLines db ctx fuel₂ lines oo ol s₁ = .ok s₁ := by
  have post := addLines_ok_post hdb fuel h
  obtain ⟨f₂, rfl⟩ : ∃ f, fuel₂ = f + 1 :=
    ⟨fuel₂ - 1, (Nat.succ_pred_eq_of_pos hf₂).symm⟩
  obtain ⟨els₂, xl₂, hval₂⟩ :=
    validateLines_isOk post.linesValid ((xlD s₁).map impliedElement) (xlD s₁)
  obtain ⟨_, hmemE₂, hmemX₂⟩ := validateLines_ok hval₂
  have hElems₂ : ∀ el, el ∈ els₂ ↔ ∃ line ∈ xlD s₁, impliedElement line = el := by
    intro el
    rw [hmemE₂ el]
    constructor
    · rintro (h' | h')
      · obtain ⟨line, hline, him⟩ := List.mem_map.mp h'
        exact ⟨line, hline, him⟩
      · obtain ⟨line, hline, him⟩ := List.mem_map.mp h'
        exact ⟨line, post.linesIn line hline, him⟩
    · rintro ⟨line, hline, him⟩
      exact Or.inl (List.mem_map.mpr ⟨line, hline, him⟩)
  have hfinish : addLinesFinish db els₂ xl₂ s₁ = .ok s₁ := by
    have hv : ∀ el ∈ els₂, dbHasElement db el = true := by
      intro el hel
      obtain ⟨line, hline, him⟩ := (hElems₂ el).mp hel
      rw [← him]
      exact post.impliedValid line hline
    rw [addLinesFinish_isOk s₁ hv]
    have hE : canon (elsD s₁ ++ els₂) = elsD s₁ := by
      have heq : canon (elsD s₁ ++ els₂) = canon (elsD s₁) := by
        refine canon_eq_of_mem_iff ?_
        intro x
        rw [List.mem_append]
        constructor
        · rintro (h' | h')
          · exact h'
          · obtain ⟨line, hline, him⟩ := (hElems₂ x).mp h'
            rw [← him]
            exact post.impliedIn line hline
        · exact Or.inl
      rw [heq, ← post.elsCanon]
    have hX : canon (xl₂ ++ xlD s₁) = xlD s₁ := by
      have heq : canon (xl₂ ++ xlD s₁) = canon (xlD s₁) := by
        refine canon_eq_of_mem_iff ?_
        intro x
        rw [List.mem_append]
        constructor
        · rintro (h' | h')
          · rcases (hmemX₂ x).mp h' with h'' | h''
            · exact h''
            · exact post.linesIn x h''
          · exact h'
        · exact Or.inr
      rw [heq, ← post.xlCanon]
    rw [hE, hX]
    have hs : RState.mk (some (elsD s₁)) (some (xlD s₁)) = s₁ := by
      rw [← post.elsSome, ← post.xlSome]
    rw [hs]
  unfold addLines
  simp only [hval₂, post.elsSome]
  by_cases hex₂ : ((elsD s₁).filter (fun el => !els₂.contains el)).isEmpty = true
  · rw [if_pos hex₂]
    exact hfinish
  · rw [if_neg hex₂]
    have huncov : ∀ el ∈ (elsD s₁).filter (fun el => !els₂.contains el),
        ∃ be t, ctx.beamEnergy = some be ∧ dbLines db el = some t ∧
          candidateLines el t ol (selectionEndEnergy be ctx.highValue) = [] := by
      intro el hel
      obtain ⟨hel₁, hel₂⟩ := List.mem_filter.mp hel
      have hnotmem : el ∉ els₂ := by simpa using hel₂
      refine post.uncovered el hel₁ ?_
      rintro ⟨line, hline, him⟩
      exact hnotmem ((hElems₂ el).mpr ⟨line, hline, him⟩)
    have hnenil : (elsD s₁).filter (fun el => !els₂.contains el) ≠ [] := by
      intro hnil
      rw [hnil] at hex₂
      exact hex₂ rfl
    obtain ⟨el₀, hel₀⟩ := List.exists_mem_of_ne_nil _ hnenil
    obtain ⟨be, t₀, hbe, _, _⟩ := huncov el₀ hel₀
    have hgl₂ : getLinesFromElements db ctx
        ((elsD s₁).filter (fun el => !els₂.contains el)) oo ol = .ok [] := by
      unfold getLinesFromElements
      rw [hbe]
      refine select_all_empty ?_
      intro el hel
      obtain ⟨be', t, hbe', ht, hc⟩ := huncov el hel
      rw [hbe] at hbe'
      obtain rfl : be' = be := (Option.some.inj hbe').symm
      exact ⟨t, ht, hc⟩
    simp only [hgl₂]
    rw [if_pos (show (List.isEmpty ([] : List String)) = true from rfl)]
    exact hfinish

/-- C6 witness: the idempotence theorem applied to a concrete successful
call (adding `Mn_Ka` to a registry already holding `Mn`). -/
theorem addLines_idempotent_witness :
    addLines dbA ⟨some 20, 10⟩ 1 ["Mn_Ka"] false none ⟨some ["Mn"], some ["Mn_Ka"]⟩ =
      .ok ⟨some ["Mn"], some ["Mn_Ka"]⟩ := by
  have h1 : addLines dbA ⟨some 20, 10⟩ 1 ["Mn_Ka"] false none ⟨some ["Mn"], none⟩ =
      .ok ⟨some ["Mn"], some ["Mn_Ka"]⟩ := by decide
  exact addLines_idempotent dbA ⟨some 20, 10⟩ (by decide) h1 1 (by decide)

/-! ## The registry invariant under the registry operations -/

/-- C7 counterexample: from an invariant-satisfying state holding element
`Fe` and line `Fe_Ka`, a successful `setElements(["Mn"])` erases the element
list but keeps the stored lines, leaving a state where the element implied by
the stored `Fe_Ka` is no longer stored — the invariant is broken. -/
theorem C7_counterexample :
    RegistryInv dbA ⟨some ["Fe"], some ["Fe_Ka"]⟩ ∧
    setElements dbA ["Mn"] ⟨some ["Fe"], some ["Fe_Ka"]⟩ =
      .ok ⟨some ["Mn"], some ["Fe_Ka"]⟩ ∧
    ¬ RegistryInv dbA ⟨some ["Mn"], some ["Fe_Ka"]⟩ :=
  ⟨by decide, by decide, by decide⟩

/-- C7 (amended): after every successful `addElements`, `setLines` and
`addLines` from an invariant-satisfying state, the invariant holds: implied
elements are stored, no stored line refers to an unknown element or subshell,
and both stored lists are sorted and duplicate-free.  `setElements`, however,
erases the element list while keeping the stored lines, so it can leave
stored lines whose implied elements are no longer stored. -/
theorem registry_inv_preserved (db : ElementsDB) (ctx : SpectrumContext)
    (hdb : DBWellFormed db) :
    (∀ (els : List String) (s s' : RState), RegistryInv db s →
      addElements db els s = .ok s' → RegistryInv db s') ∧
    (∀ (fuel : Nat) (lines : List String) (oo : Bool) (ol : Option (List String))
      (s s' : RState), RegistryInv db s →
      setLines db ctx fuel lines oo ol s = .ok s' → RegistryInv db s') ∧
    (∀ (fuel : Nat) (lines : List String) (oo : Bool) (ol : Option (List String))
      (s s' : RState), RegistryInv db s →
      addLines db ctx fuel lines oo ol s = .ok s' → RegistryInv db s') := by
  have haddL : ∀ (fuel : Nat) (lines : List String) (oo : Bool)
      (ol : Option (List String)) (s s' : RState),
      (∀ line ∈ xlD s, lineValidB db line = true) →
      addLines db ctx fuel lines oo ol s = .ok s' → RegistryInv db s' := by
    intro fuel lines oo ol s s' hvalid h
    have post := addLines_ok_post hdb fuel h
    refine ⟨?_, post.impliedIn, ?_, ?_, ?_, ?_⟩
    · intro line hline
      rcases post.xlFrom line hline with h' | h'
      · exact hvalid line h'
      · exact h'
    · rw [post.elsCanon]; exact canon_sorted _
    · rw [post.elsCanon]; exact canon_nodup _
    · rw [post.xlCanon]; exact canon_sorted _
    · rw [post.xlCanon]; exact canon_nodup _
  refine ⟨?_, ?_, ?_⟩
  · intro els s s' hinv h
    obtain ⟨_, hs'⟩ := addElements_ok h
    obtain ⟨hval, himp, _, _, hsortX, hndX⟩ := hinv
    rw [hs']
    refine ⟨?_, ?_, ?_, ?_, ?_, ?_⟩
    · intro line hline
      exact hval line hline
    · intro line hline
      exact mem_canon.mpr (List.mem_append.mpr (Or.inl (himp line hline)))
    · exact canon_sorted _
    · exact canon_nodup _
    · exact hsortX
    · exact hndX
  · intro fuel lines oo ol s s' _ h
    exact haddL fuel lines oo ol { s with xrayLines := none } s'
      (fun line hline => absurd hline (List.not_mem_nil line)) h
  · intro fuel lines oo ol s s' hinv h
    exact haddL fuel lines oo ol s s' hinv.1 h

/-- C7 witness: invariant preservation applied to a concrete `addLines` call. -/
theorem registry_inv_preserved_witness :
    RegistryInv dbA ⟨some ["Mn"], some ["Mn_Ka"]⟩ := by
  have h1 : addLines dbA ⟨some 20, 10⟩ 1 ["Mn_Ka"] false none ⟨some ["Mn"], none⟩ =
      .ok ⟨some ["Mn"], some ["Mn_Ka"]⟩ := by decide
  exact (registry_inv_preserved dbA ⟨some 20, 10⟩ (by decide)).2.2 1 ["Mn_Ka"] false none
    ⟨some ["Mn"], none⟩ ⟨some ["Mn"], some ["Mn_Ka"]⟩ (by decide) h1

end EDS
